import Mathlib

/-!
# Verification of the reference-consistency engine of `homeassistant-entity-renamer`

This file gives a shallow embedding, in Lean 4, of the pure core of the
repository's Python sources (`common.py`, `find_broken_automations.py`,
`find_broken_dashboards.py`, `find_broken_groups.py`, `find_broken_scripts.py`,
`reset_entity_names.py`) and proves or refutes the frozen claims about it.

Strings are modelled at the level of `List Char` (Python `str` over the ASCII
range, which covers every identifier and document appearing in the claims);
`Doc` models the JSON-like configuration trees (`dict` / `list` / scalars)
that the scanners and rewriters walk.  Python's `re` usage is modelled by
executable character-list functions that mirror the exact patterns compiled in
the sources.
-/

namespace HAER

/-- ASCII lower-casing, as Python's case-insensitive regex matching folds the
ASCII range (`re.IGNORECASE` on the ASCII identifiers at hand). -/
def lc (c : Char) : Char := c.toLower

/-- Case-insensitive equality of single characters. -/
def ciChar (a b : Char) : Bool := lc a == lc b

/-- The character class `[a-z0-9_.-]` of `common.replace_references`'s regex,
compiled with `re.IGNORECASE`: letters of either case, digits, underscore,
dot, hyphen.  A character matches iff its lower-cased form is in the class. -/
def isIdentCont (c : Char) : Bool :=
  let l := lc c
  ('a' ≤ l && l ≤ 'z') || ('0' ≤ l && l ≤ '9') || l == '_' || l == '.' || l == '-'

/-- The word class `[a-z0-9_]` (with `re.IGNORECASE`) used by the scanners. -/
def isWordChar (c : Char) : Bool :=
  let l := lc c
  ('a' ≤ l && l ≤ 'z') || ('0' ≤ l && l ≤ '9') || l == '_'

/-- Case-insensitive equality of character lists (Python `re.IGNORECASE`
semantics for a literal pattern, restricted to ASCII). -/
def ciEqL (a b : List Char) : Bool := a.map lc == b.map lc

/-- `startsCI pat s`: `pat` is a case-insensitive prefix of `s`. -/
def startsCI : List Char → List Char → Bool
  | [], _ => true
  | _ :: _, [] => false
  | p :: ps, c :: cs => ciChar p c && startsCI ps cs

/-- The right-boundary test of the pattern `re.escape(old) + r"(?![a-z0-9_.-])"`:
the text that follows a candidate occurrence must be empty or start with a
character outside the identifier-continuation class. -/
def boundaryOk : List Char → Bool
  | [] => true
  | c :: _ => !(isIdentCont c)

/-- A match of the compiled pattern at the head of `s`: `old` occurs
case-insensitively at the start of `s` and is right-bounded.  (`old` is the
escaped entity id, hence a non-empty literal; the `old ≠ []` guard never
fires on the identifiers the tools pass in.) -/
def matchHere (old s : List Char) : Bool :=
  !old.isEmpty && startsCI old s && boundaryOk (s.drop old.length)

/-- `re.search` of the pattern over `s`: some suffix of `s` carries a match. -/
def hasMatch (old : List Char) : List Char → Bool
  | [] => matchHere old []
  | c :: rest => matchHere old (c :: rest) || hasMatch old rest

/-- The scanning engine of `pattern.sub(new_ref, value)`: left-to-right,
non-overlapping; on a match the matched span (of length `old.length`) is
replaced by `new` and scanning resumes after it, otherwise one character is
copied.  The `skip` counter realises the post-match skip structurally. -/
def pySubGo (old new : List Char) : Nat → List Char → List Char
  | _, [] => []
  | 0, c :: rest =>
      if matchHere old (c :: rest) then new ++ pySubGo old new (old.length - 1) rest
      else c :: pySubGo old new 0 rest
  | k + 1, _ :: rest => pySubGo old new k rest

/-- `re.sub` of the pattern `re.escape(old) + r"(?![a-z0-9_.-])"` (IGNORECASE)
with replacement `new`, over a whole string. -/
def pySubL (old new s : List Char) : List Char := pySubGo old new 0 s

/-- String-level wrapper of `pySubL`. -/
def pySub (old new s : String) : String := ⟨pySubL old.data new.data s.data⟩

/-- The JSON-like configuration trees (`dict` / `list` values of the parsed
automation, script and dashboard configurations). -/
inductive Doc where
  | str : String → Doc
  | num : Int → Doc
  | bool : Bool → Doc
  | null : Doc
  | arr : List Doc → Doc
  | dict : List (String × Doc) → Doc

/-- A document is a container (Python `isinstance(data, (dict, list))`). -/
def Doc.isContainer : Doc → Bool
  | .dict _ => true
  | .arr _ => true
  | _ => false

mutual
/-- One child of a container, as `common.replace_references` treats it:
a string value is substituted through the compiled pattern (the code's
`pattern.search` guard plus `new_value != value` check is extensionally the
comparison of the substitution result with the original), a nested container
is recursed into, any other scalar is left alone. -/
def rrChild (old new : String) : Doc → Doc × Bool
  | .str s =>
      let ns := pySub old new s
      if ns = s then (.str s, false) else (.str ns, true)
  | .dict kvs => let r := rrPairs old new kvs; (.dict r.1, r.2)
  | .arr xs => let r := rrList old new xs; (.arr r.1, r.2)
  | d => (d, false)

/-- The dict branch of `common.replace_references`: keys are kept, each value
is processed, the modified flags are or-ed. -/
def rrPairs (old new : String) : List (String × Doc) → List (String × Doc) × Bool
  | [] => ([], false)
  | (k, v) :: rest =>
      let c := rrChild old new v
      let r := rrPairs old new rest
      ((k, c.1) :: r.1, c.2 || r.2)

/-- The list branch of `common.replace_references`. -/
def rrList (old new : String) : List Doc → List Doc × Bool
  | [] => ([], false)
  | v :: rest =>
      let c := rrChild old new v
      let r := rrList old new rest
      (c.1 :: r.1, c.2 || r.2)
end

/-- `common.replace_references(data, old_ref, new_ref)` (src/common.py,
lines 199–235): recursively replaces right-bounded occurrences of `old` in
every string leaf below a container, in place; returns whether anything
changed.  A non-container argument falls through both `isinstance` checks and
is returned unmodified with `False`. -/
def replace_references (old new : String) : Doc → Doc × Bool
  | .dict kvs => let r := rrPairs old new kvs; (.dict r.1, r.2)
  | .arr xs => let r := rrList old new xs; (.arr r.1, r.2)
  | d => (d, false)

mutual
/-- Specification-side map over all string leaves of a document. -/
def mapStrLeaves (f : String → String) : Doc → Doc
  | .str s => .str (f s)
  | .dict kvs => .dict (msPairs f kvs)
  | .arr xs => .arr (msList f xs)
  | d => d

def msPairs (f : String → String) : List (String × Doc) → List (String × Doc)
  | [] => []
  | (k, v) :: rest => (k, mapStrLeaves f v) :: msPairs f rest

def msList (f : String → String) : List Doc → List Doc
  | [] => []
  | v :: rest => mapStrLeaves f v :: msList f rest
end

/-- The `[a-z0-9_]` class without `re.IGNORECASE` (the shape test of
identifiers is written against lowercase text in the sources). -/
def isLowerWord (c : Char) : Bool :=
  ('a' ≤ c && c ≤ 'z') || ('0' ≤ c && c ≤ '9') || c == '_'

/-- The identifier shape `[a-z0-9_]+\.[a-z0-9_]+` as a full-anchored match:
a non-empty lowercase word, one dot, a non-empty lowercase word. -/
def isEntityIdShapedL (l : List Char) : Bool :=
  let w1 := l.takeWhile isLowerWord
  match l.dropWhile isLowerWord with
  | '.' :: r2 => !w1.isEmpty && !r2.isEmpty && r2.all isLowerWord
  | _ => false

/-- String-level identifier shape. -/
def isEntityIdShaped (s : String) : Bool := isEntityIdShapedL s.data

/-- Python's `re.match(r"^[a-z0-9_]+\.[a-z0-9_]+$", s)`: `$` also matches just
before one trailing newline, which this model reproduces. -/
def reFullIdMatch (s : String) : Bool :=
  isEntityIdShapedL s.data ||
    (s.data.getLast? == some '\n' && isEntityIdShapedL s.data.dropLast)

/-- `x` occurs as a (contiguous) substring of `s`. -/
def containsL (x : List Char) : List Char → Bool
  | [] => x.isEmpty
  | c :: r => x.isPrefixOf (c :: r) || containsL x r

/-- Python `s.startswith(p)` on the character-list model. -/
def strStarts (p s : String) : Bool := p.data.isPrefixOf s.data

/-- Python `s.split(".")[0]` / `s.split(".", 1)[0]`: the text before the first
dot (the whole string if there is none). -/
def domainOf (s : String) : String := ⟨s.data.takeWhile (· ≠ '.')⟩

/-- Python `s.split(".", 1)[1]`: the text after the first dot. -/
def nameOf (s : String) : String := ⟨(s.data.dropWhile (· ≠ '.')).drop 1⟩

mutual
/-- Does the document have a string leaf that equals `x` (dict values, list
elements and the root, at any depth)? -/
def hasStrLeaf (x : String) : Doc → Bool
  | .str s => s == x
  | .arr xs => hslList x xs
  | .dict kvs => hslPairs x kvs
  | _ => false

def hslList (x : String) : List Doc → Bool
  | [] => false
  | v :: rest => hasStrLeaf x v || hslList x rest

def hslPairs (x : String) : List (String × Doc) → Bool
  | [] => false
  | (_, v) :: rest => hasStrLeaf x v || hslPairs x rest
end

mutual
/-- Does the document have a mapping entry whose value is the string `x`?
(This is the only position at which the dashboard scanner tests leaves.) -/
def hasDictValueLeaf (x : String) : Doc → Bool
  | .arr xs => hdvList x xs
  | .dict kvs => hdvPairs x kvs
  | _ => false

def hdvList (x : String) : List Doc → Bool
  | [] => false
  | v :: rest => hasDictValueLeaf x v || hdvList x rest

def hdvPairs (x : String) : List (String × Doc) → Bool
  | [] => false
  | (_, v) :: rest =>
      (match v with | .str s => s == x | _ => false) || hasDictValueLeaf x v ||
        hdvPairs x rest
end

mutual
/-- The frame condition of the rewriter: same mapping keys in the same order,
same sequence lengths, non-string scalars unchanged, and any string leaf with
no right-bounded occurrence of `old` unchanged. -/
def frameOK (old : String) : Doc → Doc → Bool
  | .str s, .str s' => if hasMatch old.data s.data then true else s' == s
  | .num n, .num n' => n == n'
  | .bool b, .bool b' => b == b'
  | .null, .null => true
  | .arr xs, .arr ys => frameOKList old xs ys
  | .dict kvs, .dict kvs' => frameOKPairs old kvs kvs'
  | _, _ => false

def frameOKList (old : String) : List Doc → List Doc → Bool
  | [], [] => true
  | x :: xs, y :: ys => frameOK old x y && frameOKList old xs ys
  | _, _ => false

def frameOKPairs (old : String) : List (String × Doc) → List (String × Doc) → Bool
  | [], [] => true
  | (k, v) :: xs, (k', v') :: ys => k' == k && frameOK old v v' && frameOKPairs old xs ys
  | _, _ => false
end

namespace Dashboards

mutual
/-- One child of a container, as the dashboard-specific `replace_references`
(src/find_broken_dashboards.py, lines 181–203) treats it: a string value is
replaced only when it *equals* `old` exactly; containers are recursed into;
everything else is untouched. -/
def drChild (old new : String) : Doc → Doc × Bool
  | .str s => if s = old then (.str new, true) else (.str s, false)
  | .dict kvs => let r := drPairs old new kvs; (.dict r.1, r.2)
  | .arr xs => let r := drList old new xs; (.arr r.1, r.2)
  | d => (d, false)

def drPairs (old new : String) : List (String × Doc) → List (String × Doc) × Bool
  | [] => ([], false)
  | (k, v) :: rest =>
      let c := drChild old new v
      let r := drPairs old new rest
      ((k, c.1) :: r.1, c.2 || r.2)

def drList (old new : String) : List Doc → List Doc × Bool
  | [] => ([], false)
  | v :: rest =>
      let c := drChild old new v
      let r := drList old new rest
      (c.1 :: r.1, c.2 || r.2)
end

/-- `replace_references` of src/find_broken_dashboards.py: exact-equality
replacement of string leaves, recursively, flag true iff a leaf was hit. -/
def replace_references (old new : String) : Doc → Doc × Bool
  | .dict kvs => let r := drPairs old new kvs; (.dict r.1, r.2)
  | .arr xs => let r := drList old new xs; (.arr r.1, r.2)
  | d => (d, false)

/-- The value strings excluded by the dashboard scanner (none of them can
match the identifier shape, the test is kept for fidelity). -/
def nonEntityValues : List String := ["type", "icon", "name", "theme", "url_path"]

mutual
/-- `find_entity_references` (src/find_broken_dashboards.py, lines 157–178):
walks the tree; only *mapping values* that are strings are tested against the
anchored identifier pattern; list elements are merely recursed into (a bare
string list element is never tested). -/
def find_entity_references : Doc → List String
  | .dict kvs => ferPairs kvs
  | .arr xs => ferList xs
  | _ => []

def ferPairs : List (String × Doc) → List String
  | [] => []
  | (_, v) :: rest =>
      (match v with
       | .str s => if reFullIdMatch s && !nonEntityValues.contains s then [s] else []
       | _ => []) ++ find_entity_references v ++ ferPairs rest

def ferList : List Doc → List String
  | [] => []
  | v :: rest => find_entity_references v ++ ferList rest
end

/-- The helper-domain allow-list of the dashboard filter. -/
def inputDomains : List String :=
  ["input_select", "input_text", "input_number", "input_boolean",
   "input_datetime", "input_button"]

/-- The standard-entity-domain allow-list of the dashboard filter. -/
def standardDomains : List String :=
  ["sensor", "binary_sensor", "switch", "light", "cover", "media_player",
   "climate", "fan", "lock", "camera", "weather", "device_tracker", "person",
   "zone", "sun", "timer", "counter", "group", "scene", "script", "automation"]

/-- A reference survives the dashboard domain filter iff its domain is a
helper domain or a standard domain. -/
def dashKeepRef (r : String) : Bool :=
  inputDomains.contains (domainOf r) || standardDomains.contains (domainOf r)

/-- Ordered insertion for lexicographic string sort. -/
def insStr (x : String) : List String → List String
  | [] => [x]
  | y :: r => if y ≤ x then y :: insStr x r else x :: y :: r

/-- Model of Python `sorted` on strings (insertion sort, lexicographic by
code point — identical on the ASCII identifiers at hand). -/
def sortStrs : List String → List String
  | [] => []
  | x :: r => insStr x (sortStrs r)

/-- `sorted(list(set([r for r in refs if r not in valid])))` followed by the
domain filter: the broken-reference pipeline of `find_broken_dashboards`
(lines 249–297). -/
def dashFilteredBroken (refs : List String) (valid : List String) : List String :=
  (sortStrs ((refs.filter (fun r => !valid.contains r)).dedup)).filter dashKeepRef

end Dashboards

/-! ## The serialized-text scanner of `find_broken_automations.py`

`find_broken_references` serializes each automation configuration with
`json.dumps` and collects `re.findall(r'"([a-z0-9_]+\.[a-z0-9_]+)"', ...,
re.IGNORECASE)`.  Both steps are modelled character-exactly below
(`json.dumps` defaults: `ensure_ascii=True`, separators `", "` and `": "`). -/

/-- Opening brace character (0x7b). -/
def lbrace : Char := Char.ofNat 123

/-- Closing brace character (0x7d). -/
def rbrace : Char := Char.ofNat 125

/-- Lowercase hexadecimal digit. -/
def hexDigit (n : Nat) : Char :=
  if n < 10 then Char.ofNat (48 + n) else Char.ofNat (87 + n)

/-- A `\uXXXX` escape of a code unit. -/
def uEsc (n : Nat) : List Char :=
  ['\\', 'u', hexDigit (n / 4096 % 16), hexDigit (n / 256 % 16),
   hexDigit (n / 16 % 16), hexDigit (n % 16)]

/-- `json.dumps` escaping of one character (`ensure_ascii=True`): the JSON
two-character escapes, `\u00xx` for other control characters, the character
itself for printable ASCII, and `\uXXXX` (with surrogate pairs above the
basic plane) for the rest. -/
def escChar (c : Char) : List Char :=
  if c == '"' then ['\\', '"']
  else if c == '\\' then ['\\', '\\']
  else if c == '\n' then ['\\', 'n']
  else if c == '\t' then ['\\', 't']
  else if c == '\r' then ['\\', 'r']
  else if c == Char.ofNat 8 then ['\\', 'b']
  else if c == Char.ofNat 12 then ['\\', 'f']
  else if c.toNat < 32 then uEsc c.toNat
  else if c.toNat < 127 then [c]
  else if c.toNat < 65536 then uEsc c.toNat
  else
    let v := c.toNat - 65536
    uEsc (55296 + v / 1024) ++ uEsc (56320 + v % 1024)

/-- Escape a whole string body. -/
def escL : List Char → List Char
  | [] => []
  | c :: r => escChar c ++ escL r

mutual
/-- `json.dumps` of a document (default separators). -/
def jsonDumps : Doc → List Char
  | .str s => '"' :: (escL s.data ++ ['"'])
  | .num n => (toString n).data
  | .bool b => if b then "true".data else "false".data
  | .null => "null".data
  | .arr xs => '[' :: (jdList xs ++ [']'])
  | .dict kvs => lbrace :: (jdPairs kvs ++ [rbrace])

def jdList : List Doc → List Char
  | [] => []
  | [x] => jsonDumps x
  | x :: y :: rest => jsonDumps x ++ ',' :: ' ' :: jdList (y :: rest)

def jdPairs : List (String × Doc) → List Char
  | [] => []
  | [(k, v)] => '"' :: (escL k.data ++ '"' :: ':' :: ' ' :: jsonDumps v)
  | (k, v) :: p :: rest =>
      ('"' :: (escL k.data ++ '"' :: ':' :: ' ' :: jsonDumps v)) ++
        ',' :: ' ' :: jdPairs (p :: rest)
end

/-- One attempted match of `r'"([a-z0-9_]+\.[a-z0-9_]+)"'` (IGNORECASE) at the
head of the text: a quote, a maximal non-empty word run, a dot, a maximal
non-empty word run, a quote.  Because the word class excludes both `.` and
`"`, maximal munch coincides with the backtracking regex semantics.  Returns
the captured group and the remaining text after the closing quote. -/
def matchQuoted : List Char → Option (List Char × List Char)
  | [] => none
  | c :: rest =>
    if c = '"' then
      let w1 := rest.takeWhile isWordChar
      match rest.dropWhile isWordChar with
      | d :: r2 =>
        if d = '.' then
          let w2 := r2.takeWhile isWordChar
          match r2.dropWhile isWordChar with
          | q :: r4 =>
            if q = '"' then
              if w1.isEmpty || w2.isEmpty then none else some (w1 ++ '.' :: w2, r4)
            else none
          | [] => none
        else none
      | [] => none
    else none

/-- Fuelled `re.findall` scan: try a match at every position, consume matched
spans whole (non-overlapping, leftmost), collect captured groups. -/
def findAllF : Nat → List Char → List (List Char)
  | 0, _ => []
  | _ + 1, [] => []
  | f + 1, c :: rest =>
      match matchQuoted (c :: rest) with
      | some (cap, r) => cap :: findAllF f r
      | none => findAllF f rest

/-- `re.findall(r'"([a-z0-9_]+\.[a-z0-9_]+)"', s, re.IGNORECASE)`. -/
def findAll (s : List Char) : List (List Char) := findAllF s.length s

/-- The fixed platform-selector literals excluded by the automation scanner. -/
def platformLiterals : List String :=
  ["platform.state", "platform.numeric_state", "platform.template",
   "platform.time", "platform.sun", "platform.zone", "platform.webhook",
   "platform.mqtt"]

/-- The exclusion test of `find_broken_references`
(src/find_broken_automations.py, lines 305–321): self reference, platform
literals, the `input_select.` domain. -/
def autoExclude (ownId m : String) : Bool :=
  m == ownId || platformLiterals.contains m || strStarts "input_select." m

/-- The candidates the automation scanner reports for one document: all
regex captures from the serialized form, minus the exclusions. -/
def autoCandidates (ownId : String) (d : Doc) : List String :=
  ((findAll (jsonDumps d)).map (fun l => (⟨l⟩ : String))).filter
    (fun m => !autoExclude ownId m)

/-- The broken references of one document: candidates absent from the valid
set (line 323). -/
def autoBrokenRefs (ownId : String) (d : Doc) (valid : List String) : List String :=
  (autoCandidates ownId d).filter (fun m => !valid.contains m)

/-! ## The suggestion engine (`common.suggest_fix`, lines 118–167)

`difflib.get_close_matches` and `SequenceMatcher.ratio()` are modelled
exactly for inputs below difflib's autojunk threshold (`len(b) < 200`, which
holds for every identifier at hand): the longest-matching-block recursion,
the two quick upper bounds, the cutoff filter and `heapq.nlargest` (which
orders the `(score, word)` tuples lexicographically, descending).  Scores are
exact rationals where CPython uses floats. -/

/-- All positions of `ch` in `b`, ascending (difflib's `b2j`). -/
def jIndices (b : List Char) (ch : Char) : List Nat :=
  (b.enum.filter (fun p => p.2 == ch)).map (·.1)

/-- Lookup in the `j2len` table, defaulting to 0. -/
def lookupNat (l : List (Nat × Nat)) (key : Nat) : Nat :=
  match l.find? (fun p => p.1 == key) with
  | some p => p.2
  | none => 0

/-- The inner `for j in b2j[a[i]]` loop of `find_longest_match`: threads the
`newj2len` table and the best block `(besti, bestj, bestsize)`. -/
def flmInner (j2len : List (Nat × Nat)) (i : Nat) :
    List Nat → List (Nat × Nat) → Nat × Nat × Nat → List (Nat × Nat) × (Nat × Nat × Nat)
  | [], acc, best => (acc, best)
  | j :: js, acc, best =>
      let prev := if j = 0 then 0 else lookupNat j2len (j - 1)
      let k := prev + 1
      let best' := if k > best.2.2 then (i + 1 - k, j + 1 - k, k) else best
      flmInner j2len i js (acc ++ [(j, k)]) best'

/-- The outer `for i in range(alo, ahi)` loop of `find_longest_match`. -/
def flmOuter (a : List Char) (b : List Char) (blo bhi : Nat) :
    List Nat → List (Nat × Nat) → Nat × Nat × Nat → Nat × Nat × Nat
  | [], _, best => best
  | i :: is, j2len, best =>
      let js := (jIndices b (a.getD i (Char.ofNat 0))).filter
        (fun j => blo ≤ j && j < bhi)
      let r := flmInner j2len i js [] best
      flmOuter a b blo bhi is r.1 r.2

/-- `SequenceMatcher.find_longest_match` without junk (the junk sets are
empty below the autojunk threshold, so the post-loop extension passes are
no-ops: the dynamic program already returns a maximal block). -/
def find_longest_match (a b : List Char) (alo ahi blo bhi : Nat) : Nat × Nat × Nat :=
  flmOuter a b blo bhi (List.range' alo (ahi - alo)) [] (alo, blo, 0)

/-- Total size of all matching blocks (the recursion of
`get_matching_blocks`, which `ratio()` sums over).  The fuel dominates the
recursion depth: each recursive window is strictly narrower in `a`. -/
def matchTotalF (a b : List Char) : Nat → Nat → Nat → Nat → Nat → Nat
  | 0, _, _, _, _ => 0
  | fuel + 1, alo, ahi, blo, bhi =>
      let m := find_longest_match a b alo ahi blo bhi
      if m.2.2 = 0 then 0
      else
        matchTotalF a b fuel alo m.1 blo m.2.1 + m.2.2 +
          matchTotalF a b fuel (m.1 + m.2.2) ahi (m.2.1 + m.2.2) bhi

/-- The number of matching characters `ratio()` is computed from. -/
def matchTotal (a b : List Char) : Nat := matchTotalF a b (a.length + 1) 0 a.length 0 b.length

/-- `difflib._calculate_ratio`: `2.0 * matches / length`, and 1 when both
sequences are empty. -/
def calcScoreQ (mtot len : Nat) : ℚ :=
  if len = 0 then 1 else mkRat (2 * mtot) len

/-- `SequenceMatcher.ratio()`. -/
def seqScore (a b : List Char) : ℚ := calcScoreQ (matchTotal a b) (a.length + b.length)

/-- `SequenceMatcher.quick_ratio()`: multiset intersection of characters. -/
def quickScore (a b : List Char) : ℚ :=
  calcScoreQ ((a.eraseDups).foldl (fun acc c => acc + min (a.count c) (b.count c)) 0)
    (a.length + b.length)

/-- `SequenceMatcher.real_quick_ratio()`. -/
def realQuickScore (a b : List Char) : ℚ :=
  calcScoreQ (min a.length b.length) (a.length + b.length)

/-- Lexicographic `≤` on character lists (Python string comparison, by code
point). -/
def listLexLe : List Char → List Char → Bool
  | [], _ => true
  | _ :: _, [] => false
  | a :: as, b :: bs => if a < b then true else if b < a then false else listLexLe as bs

/-- The descending order `heapq.nlargest` imposes on the `(score, word)`
tuples of `get_close_matches`: larger score first, ties by larger word. -/
def RPair (p q : ℚ × String) : Prop :=
  q.1 < p.1 ∨ (p.1 = q.1 ∧ listLexLe q.2.data p.2.data = true)

instance : DecidableRel RPair := fun p q => by unfold RPair; infer_instance

/-- The scored survivors of the three cutoff tests in `get_close_matches`. -/
def closeScored (word : String) (poss : List String) (cutoff : ℚ) : List (ℚ × String) :=
  poss.filterMap (fun x =>
    if cutoff ≤ realQuickScore x.data word.data ∧ cutoff ≤ quickScore x.data word.data ∧
        cutoff ≤ seqScore x.data word.data then
      some (seqScore x.data word.data, x)
    else none)

/-- `difflib.get_close_matches(word, possibilities, n, cutoff)`:
`heapq.nlargest(n, result)` is `sorted(result, reverse=True)[:n]`. -/
def get_close_matches (word : String) (poss : List String) (n : Nat) (cutoff : ℚ) :
    List String :=
  ((List.insertionSort RPair (closeScored word poss cutoff)).take n).map (·.2)

/-- The fixed suffix table of `suggest_fix`. -/
def suffixesList : List String :=
  ["_switch", "_light", "_sensor", "_binary_sensor", "_cover", "_fan",
   "_lock", "_climate", "_media_player"]

/-- The `seen`-set loop at the end of `suggest_fix`: keep an element iff it
is not yet in `seen`, then add it. -/
def dedupFirstGo (seen : List String) : List String → List String
  | [] => []
  | x :: r => if seen.contains x then dedupFirstGo seen r
              else x :: dedupFirstGo (x :: seen) r

/-- Order-preserving first-occurrence deduplication (`seen` starts empty). -/
def dedupFirst (l : List String) : List String := dedupFirstGo [] l

/-- `common.suggest_fix(broken_ref, valid_entities)` (src/common.py, lines
118–167).  The valid set is modelled as a list carrying one enumeration of
the Python set. -/
def suggest_fix (broken : String) (valid : List String) : List String :=
  if !(containsL ['.'] broken.data) then []
  else
    let domain := domainOf broken
    let name := nameOf broken
    let sameDomain := valid.filter (fun e => strStarts (domain ++ ".") e)
    let fuzzy := get_close_matches broken sameDomain 3 (mkRat 3 5)
    let sufCands := suffixesList.filterMap (fun suf =>
      if suf.data.isSuffixOf name.data then
        let candidate := domain ++ "." ++ (⟨name.data.take (name.data.length - suf.data.length)⟩ : String)
        if valid.contains candidate then some candidate else none
      else none)
    dedupFirst (fuzzy ++ sufCands)

/-! ## Catalog builder, correlation ids, orchestrator exits -/

/-- The outcome of one websocket fetch: the `success` flag and the decoded
payload (already projected to the entity ids for entity-yielding calls). -/
structure FetchResult where
  success : Bool
  items : List String

/-- `common.get_valid_entities` (lines 86–115), with the two remote responses
as parameters: a failed registry fetch contributes nothing (a warning is
printed and the scan proceeds), a failed states fetch likewise; the result is
the union of whichever fetches succeeded.  The returned correlation id is the
input advanced by the two sends. -/
def get_valid_entities (r1 r2 : FetchResult) (msgId : Nat) : List String × Nat :=
  ((if r1.success then r1.items else []) ++ (if r2.success then r2.items else []),
    msgId + 2)

/-- The decoded payload of `get_services`: domain ↦ service names. -/
structure ServicesResult where
  success : Bool
  result : List (String × List String)

/-- List concatenation of a list of lists. -/
def concatAll : List (List α) → List α
  | [] => []
  | x :: r => x ++ concatAll r

/-- `common.get_valid_services` (lines 317–335): on failure an empty set is
returned (with a warning) and the run continues; on success the two-level
mapping is flattened to `domain.service` strings. -/
def get_valid_services (r : ServicesResult) (msgId : Nat) : List String × Nat :=
  if !r.success then ([], msgId + 1)
  else (concatAll (r.result.map (fun p => p.2.map (fun svc => p.1 ++ "." ++ svc))),
    msgId + 1)

/-- The request-sending operations of `common.py` and
`reset_entity_names.py` that thread the correlation id. -/
inductive WsOp where
  | validEntities
  | validServices
  | deviceRegistry
  | relatedAutomations
  | automationConfig
  | dashboardsList
  | dashboardConfig
  | saveDashboard
  | registryGet
  | scriptConfig
  | nameChanges (rows : Nat)
  | automaticUpdates (rows : Nat)

/-- How many requests one operation sends (each behind a `msg_id += 1`):
`get_valid_entities` sends two (registry list, states), the batch operations
of `reset_entity_names.py` send one per processed row, everything else sends
exactly one. -/
def WsOp.sends : WsOp → Nat
  | .validEntities => 2
  | .nameChanges rows => rows
  | .automaticUpdates rows => rows
  | _ => 1

/-- The correlation ids one operation emits from a threaded `msg_id`, and the
value it returns: `msg_id` is incremented before every send and the last
value is handed back. -/
def WsOp.run (op : WsOp) (m : Nat) : List Nat × Nat :=
  ((List.range op.sends).map (fun i => m + 1 + i), m + op.sends)

/-- A whole sequence of threaded operations: the ids each request is sent
with, in order, and the final `msg_id`. -/
def runOps : List WsOp → Nat → List Nat × Nat
  | [], m => ([], m)
  | op :: rest, m =>
      let r := op.run m
      let r2 := runOps rest r.2
      (r.1 ++ r2.1, r2.2)

/-- One state object, as `find_broken_groups.py` consumes it: the entity id
and the attribute mapping. -/
structure GState where
  entity_id : String
  attributes : List (String × Doc)

/-- Attribute lookup. -/
def lookupAttr (attrs : List (String × Doc)) (k : String) : Option Doc :=
  (attrs.find? (fun p => p.1 == k)).map (·.2)

/-- The member list of a group-like state: present iff the `entity_id`
attribute exists and is a list (lines 52–56). -/
def groupMembers (st : GState) : Option (List Doc) :=
  match lookupAttr st.attributes "entity_id" with
  | some (.arr ms) => some ms
  | _ => none

/-- Python `m not in valid_entities` for one member (a non-string member is
never in a set of strings). -/
def memberBad (valid : List String) : Doc → Bool
  | .str s => !valid.contains s
  | _ => true

/-- The return value of `find_broken_groups` (lines 42–191): `True` iff some
group-like state has a member outside the valid set.  The interactive fix
loop never changes this value — the function returns `True` whenever
`broken_groups` was non-empty, fixed or not. -/
def find_broken_groups_found (states : List GState) (valid : List String) : Bool :=
  states.any (fun st =>
    match groupMembers st with
    | some ms => ms.any (memberBad valid)
    | none => false)

/-- The `__main__` block of `find_broken_groups.py` (lines 194–212):
`sys.exit(1)` iff `find_broken_groups` returned `True`, else a normal exit. -/
def groups_main_exit (states : List GState) (valid : List String) : Nat :=
  if find_broken_groups_found states valid then 1 else 0

/-- All broken references an automations run reports, over the fetched
configurations (owner id paired with its document). -/
def automations_scan_broken (docs : List (String × Doc)) (valid : List String) :
    List (String × String) :=
  concatAll (docs.map (fun p => (autoBrokenRefs p.1 p.2 valid).map (fun r => (p.1, r))))

/-- The `__main__` block of `find_broken_automations.py` (lines 379–396): the
scan's findings are printed and discarded; no control path calls `sys.exit`,
so a completed run always exits 0, whatever was found.  The same holds for
`find_broken_scripts.py` and `find_broken_dashboards.py`. -/
def automations_main_exit (docs : List (String × Doc)) (valid : List String) : Nat :=
  let _ := automations_scan_broken docs valid
  0

/-! ## Concrete fixtures used by the claims -/

/-- The apostrophe character (code point 39). -/
def apos : String := ⟨[Char.ofNat 39]⟩

/-- The template leaf of the boundary property, `states(…light.old…)` with
apostrophes around the identifier. -/
def stExprOld : String := "states(" ++ apos ++ "light.old" ++ apos ++ ")"

/-- Its expected rewrite. -/
def stExprNew : String := "states(" ++ apos ++ "light.new" ++ apos ++ ")"

/-- `reset_entity_names.list_entities` sends its single request with the
literal id 1 (`msg_id = 1`, not threaded further). -/
def list_entities_ids : List Nat := [1]

/-- The correlation ids of one `reset_entity_names` run: `list_entities`
sends id 1, then `process_entities` restarts the counter at 100 (`msg_id =
100  # Start safely above list_entities id`) and threads it through its
operations. -/
def reset_run_ids (ops : List WsOp) : List Nat :=
  list_entities_ids ++ (runOps ops 100).1

/-! ## Lemmas: the substitution engine -/

theorem lc_eq_of_ciChar {a b : Char} (h : ciChar a b = true) : lc a = lc b := by
  simpa [ciChar] using h

theorem identCont_eq_of_ciChar {a b : Char} (h : ciChar a b = true) :
    isIdentCont a = isIdentCont b := by
  simp only [isIdentCont]
  rw [lc_eq_of_ciChar h]

theorem matchHere_nil {old : List Char} : matchHere old [] = false := by
  cases old <;> simp [matchHere, startsCI]

theorem matchHere_ne_nil {old s : List Char} (h : matchHere old s = true) : old ≠ [] := by
  intro he
  subst he
  simp [matchHere] at h

theorem startsCI_length {p s : List Char} (h : startsCI p s = true) :
    p.length ≤ s.length := by
  induction p generalizing s with
  | nil => simp
  | cons a as ih =>
    cases s with
    | nil => simp [startsCI] at h
    | cons b bs =>
      simp only [startsCI, Bool.and_eq_true] at h
      simpa [Nat.succ_le_succ_iff] using ih h.2

theorem startsCI_append (p a t : List Char) :
    startsCI p (a ++ t) = (startsCI (p.take a.length) a && startsCI (p.drop a.length) t) := by
  induction a generalizing p with
  | nil => simp [startsCI]
  | cons c a' ih =>
    cases p with
    | nil => simp [startsCI]
    | cons q p' =>
      simp only [List.cons_append, startsCI, List.length_cons, List.take_succ_cons,
        List.drop_succ_cons, List.append_eq, ih, Bool.and_assoc]

theorem ciEqL_iff {p s : List Char} : ciEqL p s = true ↔ p.map lc = s.map lc := by
  simp [ciEqL]

theorem startsCI_full {p s : List Char} (h : startsCI p s = true)
    (hl : p.length = s.length) : ciEqL p s = true := by
  rw [ciEqL_iff]
  induction p generalizing s with
  | nil =>
    cases s with
    | nil => rfl
    | cons b bs => simp at hl
  | cons a as ih =>
    cases s with
    | nil => simp [startsCI] at h
    | cons b bs =>
      simp only [startsCI, Bool.and_eq_true] at h
      simp only [List.length_cons, Nat.succ_inj] at hl
      simp [List.map_cons, lc_eq_of_ciChar h.1, ih h.2 hl]

theorem startsCI_of_ciEqL {p s : List Char} (h : ciEqL p s = true) :
    startsCI p s = true := by
  rw [ciEqL_iff] at h
  induction p generalizing s with
  | nil => rfl
  | cons a as ih =>
    cases s with
    | nil => simp at h
    | cons b bs =>
      simp only [List.map_cons, List.cons.injEq] at h
      simp [startsCI, ciChar, h.1, ih h.2]

theorem startsCI_take_ciEqL {p s : List Char} (h : startsCI p s = true) :
    ciEqL p (s.take p.length) = true := by
  rw [ciEqL_iff]
  induction p generalizing s with
  | nil => rfl
  | cons a as ih =>
    cases s with
    | nil => simp [startsCI] at h
    | cons b bs =>
      simp only [startsCI, Bool.and_eq_true] at h
      simp [List.map_cons, lc_eq_of_ciChar h.1, ih h.2]

theorem pySubGo_skip (old new : List Char) :
    ∀ (t : List Char) (k : Nat), pySubGo old new k t = pySubGo old new 0 (t.drop k) := by
  intro t
  induction t with
  | nil => intro k; simp [pySubGo]
  | cons c rest ih =>
    intro k
    cases k with
    | zero => simp
    | succ k => simpa [pySubGo] using ih k

theorem pySubL_match {old new : List Char} {c : Char} {rest : List Char}
    (h : matchHere old (c :: rest) = true) :
    pySubL old new (c :: rest) = new ++ pySubL old new ((c :: rest).drop old.length) := by
  obtain ⟨o, os, rfl⟩ : ∃ o os, old = o :: os := by
    cases old with
    | nil => exact absurd rfl (matchHere_ne_nil h)
    | cons o os => exact ⟨o, os, rfl⟩
  simp only [pySubL, pySubGo, h, if_pos]
  rw [pySubGo_skip]
  simp

theorem pySubL_copy {old new : List Char} {c : Char} {rest : List Char}
    (h : matchHere old (c :: rest) = false) :
    pySubL old new (c :: rest) = c :: pySubL old new rest := by
  simp [pySubL, pySubGo, h]

theorem pySubInduction (old : List Char) (hold : old ≠ []) {P : List Char → Prop}
    (hnil : P [])
    (hmat : ∀ c rest, matchHere old (c :: rest) = true → P ((c :: rest).drop old.length) →
      P (c :: rest))
    (hcop : ∀ c rest, matchHere old (c :: rest) = false → P rest → P (c :: rest)) :
    ∀ s, P s := by
  have hpos : 0 < old.length := List.length_pos.mpr hold
  have key : ∀ n s, List.length s ≤ n → P s := by
    intro n
    induction n with
    | zero =>
      intro s hs
      have : s = [] := List.eq_nil_of_length_eq_zero (Nat.le_zero.mp hs)
      simpa [this] using hnil
    | succ n ih =>
      intro s hs
      cases s with
      | nil => exact hnil
      | cons c rest =>
        by_cases h : matchHere old (c :: rest) = true
        · refine hmat c rest h (ih _ ?_)
          simp only [List.length_drop, List.length_cons]
          simp only [List.length_cons] at hs
          omega
        · refine hcop c rest (by simpa using h) (ih _ ?_)
          simp only [List.length_cons] at hs
          omega
  exact fun s => key s.length s le_rfl

theorem hasMatch_cons {old : List Char} {c : Char} {rest : List Char} :
    hasMatch old (c :: rest) = (matchHere old (c :: rest) || hasMatch old rest) := rfl

theorem hasMatch_nil {old : List Char} : hasMatch old [] = false := by
  simp [hasMatch, matchHere_nil]

theorem matchHere_hasMatch {old t : List Char} (h : matchHere old t = true) :
    hasMatch old t = true := by
  cases t with
  | nil => rw [matchHere_nil] at h; exact absurd h (by simp)
  | cons c rest => simp [hasMatch_cons, h]

theorem hasMatch_append_left {old t : List Char} (a : List Char)
    (h : hasMatch old t = true) : hasMatch old (a ++ t) = true := by
  induction a with
  | nil => simpa using h
  | cons c a' ih => simp [hasMatch_cons, ih]

theorem hasMatch_append_none {old : List Char} (a t : List Char)
    (hA : ∀ i, i < a.length → matchHere old (a.drop i ++ t) = false)
    (ht : hasMatch old t = false) : hasMatch old (a ++ t) = false := by
  induction a with
  | nil => simpa using ht
  | cons c a' ih =>
    have h0 := hA 0 (by simp)
    simp only [List.drop_zero] at h0
    rw [List.cons_append, hasMatch_cons]
    simp only [Bool.or_eq_false_iff]
    refine ⟨by simpa using h0, ih ?_⟩
    intro i hi
    have := hA (i + 1) (by simpa using Nat.succ_lt_succ hi)
    simpa using this

theorem pySub_no_match_id (old new : List Char) (hold : old ≠ []) :
    ∀ s, hasMatch old s = false → pySubL old new s = s := by
  refine pySubInduction old hold (P := fun s => hasMatch old s = false → pySubL old new s = s)
    (fun _ => rfl) ?_ ?_
  · intro c rest hm _ hfalse
    rw [hasMatch_cons, hm] at hfalse
    simp at hfalse
  · intro c rest hm ih hfalse
    rw [hasMatch_cons, hm] at hfalse
    simp only [Bool.false_or] at hfalse
    rw [pySubL_copy hm, ih hfalse]

theorem pySub_len_le (old new : List Char) (hold : old ≠ [])
    (hle : new.length ≤ old.length) :
    ∀ s, (pySubL old new s).length ≤ s.length := by
  refine pySubInduction old hold (P := fun s => (pySubL old new s).length ≤ s.length)
    (by simp [pySubL, pySubGo]) ?_ ?_
  · intro c rest hm ih
    have hlen : old.length ≤ (c :: rest).length :=
      startsCI_length (by simp only [matchHere, Bool.and_eq_true] at hm; exact hm.1.2)
    rw [pySubL_match hm]
    simp only [List.length_append, List.length_drop] at ih ⊢
    omega
  · intro c rest hm ih
    rw [pySubL_copy hm]
    simpa using Nat.succ_le_succ ih

theorem pySub_len_ge (old new : List Char) (hold : old ≠ [])
    (hge : old.length ≤ new.length) :
    ∀ s, s.length ≤ (pySubL old new s).length := by
  refine pySubInduction old hold (P := fun s => s.length ≤ (pySubL old new s).length)
    (by simp [pySubL, pySubGo]) ?_ ?_
  · intro c rest hm ih
    have hlen : old.length ≤ (c :: rest).length :=
      startsCI_length (by simp only [matchHere, Bool.and_eq_true] at hm; exact hm.1.2)
    rw [pySubL_match hm]
    simp only [List.length_append, List.length_drop] at ih ⊢
    omega
  · intro c rest hm ih
    rw [pySubL_copy hm]
    simpa using Nat.succ_le_succ ih

theorem pySub_id_no_match (old new : List Char) (hold : old ≠ [])
    (hne : ciEqL old new = false) :
    ∀ s, pySubL old new s = s → hasMatch old s = false := by
  refine pySubInduction old hold
    (P := fun s => pySubL old new s = s → hasMatch old s = false)
    (fun _ => hasMatch_nil) ?_ ?_
  · intro c rest hm _ heq
    exfalso
    have hlen : old.length ≤ (c :: rest).length :=
      startsCI_length (by simp only [matchHere, Bool.and_eq_true] at hm; exact hm.1.2)
    rw [pySubL_match hm] at heq
    rcases Nat.lt_trichotomy new.length old.length with hlt | heql | hgt
    · have hdrop := pySub_len_le old new hold (Nat.le_of_lt hlt) ((c :: rest).drop old.length)
      have h1 := congrArg List.length heq
      simp only [List.length_append, List.length_drop, List.length_cons] at h1 hdrop hlen
      omega
    · have hnew : new = (c :: rest).take old.length := by
        have := congrArg (List.take old.length) heq
        rw [← heql] at this
        rw [List.take_left] at this
        rw [this, heql]
      have hci : ciEqL old new = true := by
        have hsci : startsCI old (c :: rest) = true := by
          simp only [matchHere, Bool.and_eq_true] at hm; exact hm.1.2
        have := startsCI_take_ciEqL hsci
        rwa [← hnew] at this
      rw [hci] at hne
      simp at hne
    · have hdrop := pySub_len_ge old new hold (Nat.le_of_lt hgt) ((c :: rest).drop old.length)
      have h1 := congrArg List.length heq
      simp only [List.length_append, List.length_drop, List.length_cons] at h1 hdrop hlen
      omega
  · intro c rest hm ih heq
    rw [pySubL_copy hm] at heq
    have := List.cons.injEq c (pySubL old new rest) c rest ▸ heq
    simp only [List.cons.injEq, true_and] at this
    rw [hasMatch_cons, hm, ih this]
    rfl

theorem pySub_changes_iff (old new : List Char) (hold : old ≠ [])
    (hne : ciEqL old new = false) (s : List Char) :
    pySubL old new s ≠ s ↔ hasMatch old s = true := by
  constructor
  · intro h
    by_contra hmm
    exact h (pySub_no_match_id old new hold s (Bool.not_eq_true _ ▸ hmm))
  · intro hm heq
    rw [pySub_id_no_match old new hold hne s heq] at hm
    exact Bool.false_ne_true hm

theorem boundary_pySub (old new : List Char) (hold : old ≠ [])
    (hallO : old.all isIdentCont = true) (t : List Char)
    (hb : boundaryOk t = true) : boundaryOk (pySubL old new t) = true := by
  cases t with
  | nil => rfl
  | cons c rest =>
    simp only [boundaryOk, Bool.not_eq_true'] at hb
    have hnom : matchHere old (c :: rest) = false := by
      obtain ⟨o, os, rfl⟩ : ∃ o os, old = o :: os := by
        cases old with
        | nil => exact absurd rfl hold
        | cons o os => exact ⟨o, os, rfl⟩
      by_contra h
      rw [Bool.not_eq_false] at h
      simp only [matchHere, Bool.and_eq_true, startsCI] at h
      have hci := h.1.2.1
      have ho : isIdentCont o = true := by
        have := List.all_eq_true.mp hallO o (by simp)
        exact this
      rw [identCont_eq_of_ciChar hci] at ho
      rw [ho] at hb
      simp at hb
    rw [pySubL_copy hnom]
    simpa [boundaryOk] using hb

theorem boundary_of_pySub (old new : List Char) (hnew : new ≠ [])
    (hallN : new.all isIdentCont = true) (t : List Char)
    (hb : boundaryOk (pySubL old new t) = true) : boundaryOk t = true := by
  cases t with
  | nil => rfl
  | cons c rest =>
    by_cases hm : matchHere old (c :: rest) = true
    · exfalso
      rw [pySubL_match hm] at hb
      obtain ⟨n0, ns, rfl⟩ : ∃ n0 ns, new = n0 :: ns := by
        cases new with
        | nil => exact absurd rfl hnew
        | cons n0 ns => exact ⟨n0, ns, rfl⟩
      simp only [List.cons_append, boundaryOk, Bool.not_eq_true'] at hb
      have := List.all_eq_true.mp hallN n0 (by simp)
      rw [this] at hb
      simp at hb
    · rw [pySubL_copy (Bool.not_eq_true _ ▸ hm)] at hb
      simpa [boundaryOk] using hb

theorem matchHere_parts {old s : List Char} (h : matchHere old s = true) :
    startsCI old s = true ∧ boundaryOk (s.drop old.length) = true := by
  simp only [matchHere, Bool.and_eq_true] at h
  exact ⟨h.1.2, h.2⟩

theorem matchHere_build {old s : List Char} (hold : old ≠ [])
    (h1 : startsCI old s = true) (h2 : boundaryOk (s.drop old.length) = true) :
    matchHere old s = true := by
  simp only [matchHere, Bool.and_eq_true]
  refine ⟨⟨?_, h1⟩, h2⟩
  simpa [List.isEmpty_iff] using hold

theorem exists_cons_of_ne_nil {l : List Char} (h : l ≠ []) :
    ∃ c cs, l = c :: cs := by
  cases l with
  | nil => exact absurd rfl h
  | cons c cs => exact ⟨c, cs, rfl⟩

/-- Key structural lemma: a right-bounded case-insensitive occurrence of an
all-identifier-character pattern `w` at the very head of a substitution
result is either explained by a suffix of `w` being (case-insensitively) the
replacement text, or was already present at the head of the input. -/
theorem pySubCross (old new : List Char) (hold : old ≠ []) (hnew : new ≠ [])
    (hallO : old.all isIdentCont = true) (hallN : new.all isIdentCont = true) :
    ∀ t, ∀ w, w ≠ [] → w.all isIdentCont = true →
      matchHere w (pySubL old new t) = true →
      (∃ k, k < w.length ∧ ciEqL (w.drop k) new = true) ∨ matchHere w t = true := by
  refine pySubInduction old hold
    (P := fun t => ∀ w, w ≠ [] → w.all isIdentCont = true →
      matchHere w (pySubL old new t) = true →
      (∃ k, k < w.length ∧ ciEqL (w.drop k) new = true) ∨ matchHere w t = true)
    ?_ ?_ ?_
  · intro w hw _ hmm
    rw [show pySubL old new [] = [] from rfl, matchHere_nil] at hmm
    exact absurd hmm (by simp)
  · -- a match of `old` at the head of the input: the output starts with `new`
    intro c rest hm _ w hw hallW hmm
    rw [pySubL_match hm] at hmm
    set r2 := pySubL old new ((c :: rest).drop old.length) with hr2
    have hbr2 : boundaryOk r2 = true :=
      boundary_pySub old new hold hallO _ (matchHere_parts hm).2
    obtain ⟨hsci, hbnd⟩ := matchHere_parts hmm
    rcases Nat.lt_trichotomy w.length new.length with hlt | heq | hgt
    · -- the boundary test would land inside `new`
      exfalso
      rw [List.drop_append_of_le_length (Nat.le_of_lt hlt)] at hbnd
      have hne2 : new.drop w.length ≠ [] := by
        intro hcon
        have := congrArg List.length hcon
        simp only [List.length_drop, List.length_nil] at this
        omega
      obtain ⟨n0, ns, hns⟩ := exists_cons_of_ne_nil hne2
      rw [hns] at hbnd
      simp only [List.cons_append, boundaryOk, Bool.not_eq_true'] at hbnd
      have hn0 : n0 ∈ new := List.drop_subset w.length new (hns ▸ List.mem_cons_self n0 ns)
      rw [List.all_eq_true.mp hallN n0 hn0] at hbnd
      simp at hbnd
    · -- `w` is case-insensitively equal to `new`
      left
      refine ⟨0, List.length_pos.mpr hw, ?_⟩
      rw [List.drop_zero]
      rw [startsCI_append] at hsci
      simp only [Bool.and_eq_true] at hsci
      have : w.take new.length = w := by rw [← heq, List.take_length]
      rw [this] at hsci
      exact startsCI_full hsci.1 heq
    · -- `w` would have to continue past `new` into the boundary character
      exfalso
      rw [startsCI_append] at hsci
      simp only [Bool.and_eq_true] at hsci
      have hne2 : w.drop new.length ≠ [] := by
        intro hcon
        have := congrArg List.length hcon
        simp only [List.length_drop, List.length_nil] at this
        omega
      obtain ⟨w0, ws, hws⟩ := exists_cons_of_ne_nil hne2
      rw [hws] at hsci
      cases hr : r2 with
      | nil => rw [hr] at hsci; simp [startsCI] at hsci
      | cons h hs =>
        rw [hr] at hsci
        simp only [startsCI, Bool.and_eq_true] at hsci
        have hw0 : w0 ∈ w := List.drop_subset new.length w (hws ▸ List.mem_cons_self w0 ws)
        have hcontW : isIdentCont w0 = true := List.all_eq_true.mp hallW w0 hw0
        rw [identCont_eq_of_ciChar hsci.2.1] at hcontW
        rw [hr] at hbr2
        simp only [boundaryOk, Bool.not_eq_true'] at hbr2
        rw [hcontW] at hbr2
        simp at hbr2
  · -- no match of `old` at the head: one character is copied
    intro c rest hm ih w hw hallW hmm
    rw [pySubL_copy hm] at hmm
    obtain ⟨w0, w', rfl⟩ := exists_cons_of_ne_nil hw
    obtain ⟨hsci, hbnd⟩ := matchHere_parts hmm
    simp only [startsCI, Bool.and_eq_true] at hsci
    have hbnd' : boundaryOk ((pySubL old new rest).drop w'.length) = true := by
      simpa [List.length_cons] using hbnd
    by_cases hw'e : w' = []
    · -- `w` is a single character: the occurrence is already in the input
      right
      subst hw'e
      refine matchHere_build (by simp) ?_ ?_
      · simp [startsCI, hsci.1]
      · simp only [List.drop_zero] at hbnd'
        have := boundary_of_pySub old new hnew hallN rest hbnd'
        simpa using this
    · have hmm' : matchHere w' (pySubL old new rest) = true :=
        matchHere_build hw'e hsci.2 hbnd'
      have hallW' : w'.all isIdentCont = true := by
        rw [List.all_eq_true] at hallW ⊢
        intro x hx
        exact hallW x (List.mem_cons_of_mem w0 hx)
      rcases ih w' hw'e hallW' hmm' with ⟨k, hk, hci⟩ | hmr
      · left
        refine ⟨k + 1, ?_, ?_⟩
        · simp only [List.length_cons]
          omega
        · simpa using hci
      · right
        obtain ⟨hsci2, hbnd2⟩ := matchHere_parts hmr
        refine matchHere_build (by simp) ?_ ?_
        · simp [startsCI, hsci.1, hsci2]
        · simpa [List.length_cons] using hbnd2

/-- After one substitution pass no right-bounded occurrence of `old` is left,
provided `old` and `new` are made of identifier characters and neither is a
case-insensitive suffix of the other. -/
theorem pySub_good (old new : List Char) (hold : old ≠ []) (hnew : new ≠ [])
    (hallO : old.all isIdentCont = true) (hallN : new.all isIdentCont = true)
    (hb : ¬ (old.map lc <:+ new.map lc)) (hc : ¬ (new.map lc <:+ old.map lc)) :
    ∀ s, hasMatch old (pySubL old new s) = false := by
  refine pySubInduction old hold
    (P := fun s => hasMatch old (pySubL old new s) = false) ?_ ?_ ?_
  · exact hasMatch_nil
  · intro c rest hm ih
    rw [pySubL_match hm]
    set r2 := pySubL old new ((c :: rest).drop old.length) with hr2
    have hbr2 : boundaryOk r2 = true :=
      boundary_pySub old new hold hallO _ (matchHere_parts hm).2
    refine hasMatch_append_none new r2 ?_ ih
    intro i hi
    by_contra hcon
    rw [Bool.not_eq_false] at hcon
    obtain ⟨hsci, hbnd⟩ := matchHere_parts hcon
    have hlen : (new.drop i).length = new.length - i := List.length_drop i new
    rcases Nat.lt_trichotomy old.length (new.drop i).length with hlt | heq | hgt
    · -- the boundary lands inside `new`
      rw [List.drop_append_of_le_length (Nat.le_of_lt hlt)] at hbnd
      have hne2 : (new.drop i).drop old.length ≠ [] := by
        intro hcon2
        have := congrArg List.length hcon2
        simp only [List.length_drop, List.length_nil] at this
        omega
      obtain ⟨n0, ns, hns⟩ := exists_cons_of_ne_nil hne2
      rw [hns] at hbnd
      simp only [List.cons_append, boundaryOk, Bool.not_eq_true'] at hbnd
      have hn0 : n0 ∈ new := by
        have h1 : n0 ∈ (new.drop i).drop old.length := hns ▸ List.mem_cons_self n0 ns
        exact List.drop_subset i new (List.drop_subset old.length (new.drop i) h1)
      rw [List.all_eq_true.mp hallN n0 hn0] at hbnd
      simp at hbnd
    · -- `old` is case-insensitively a suffix of `new`
      rw [startsCI_append] at hsci
      simp only [Bool.and_eq_true] at hsci
      have : old.take (new.drop i).length = old := by rw [← heq, List.take_length]
      rw [this] at hsci
      have hci := startsCI_full hsci.1 heq
      rw [ciEqL_iff] at hci
      refine hb ?_
      rw [hci, List.map_drop]
      exact List.drop_suffix i (new.map lc)
    · -- `old` would continue past the copy of `new`
      rw [startsCI_append] at hsci
      simp only [Bool.and_eq_true] at hsci
      have hne2 : old.drop (new.drop i).length ≠ [] := by
        intro hcon2
        have := congrArg List.length hcon2
        simp only [List.length_drop, List.length_nil] at this
        omega
      obtain ⟨w0, ws, hws⟩ := exists_cons_of_ne_nil hne2
      rw [hws] at hsci
      cases hr : r2 with
      | nil => rw [hr] at hsci; simp [startsCI] at hsci
      | cons h hs =>
        rw [hr] at hsci
        simp only [startsCI, Bool.and_eq_true] at hsci
        have hw0 : w0 ∈ old :=
          List.drop_subset (new.drop i).length old (hws ▸ List.mem_cons_self w0 ws)
        have hcontW : isIdentCont w0 = true := List.all_eq_true.mp hallO w0 hw0
        rw [identCont_eq_of_ciChar hsci.2.1] at hcontW
        rw [hr] at hbr2
        simp only [boundaryOk, Bool.not_eq_true'] at hbr2
        rw [hcontW] at hbr2
        simp at hbr2
  · intro c rest hm ih
    rw [pySubL_copy hm, hasMatch_cons]
    simp only [Bool.or_eq_false_iff]
    constructor
    · by_contra hcon
      rw [Bool.not_eq_false] at hcon
      have hcon' : matchHere old (pySubL old new (c :: rest)) = true := by
        rwa [pySubL_copy hm]
      rcases pySubCross old new hold hnew hallO hallN (c :: rest) old hold hallO hcon' with
        ⟨k, hk, hci⟩ | hmr
      · rw [ciEqL_iff] at hci
        refine hc ?_
        rw [← hci, List.map_drop]
        exact List.drop_suffix k (old.map lc)
      · rw [hmr] at hm
        simp at hm
    · exact ih

/-- Idempotence of the substitution at string level, under the amended
hypotheses. -/
theorem pySubL_idem (old new : List Char) (hold : old ≠ []) (hnew : new ≠ [])
    (hallO : old.all isIdentCont = true) (hallN : new.all isIdentCont = true)
    (hb : ¬ (old.map lc <:+ new.map lc)) (hc : ¬ (new.map lc <:+ old.map lc))
    (s : List Char) : pySubL old new (pySubL old new s) = pySubL old new s :=
  pySub_no_match_id old new hold _ (pySub_good old new hold hnew hallO hallN hb hc s)

/-- A case-insensitive suffix occurrence of `old` is a right-bounded match. -/
theorem hasMatch_of_ci_suffix {old s : List Char} (hold : old ≠ [])
    (h : old.map lc <:+ s.map lc) : hasMatch old s = true := by
  obtain ⟨u, hu⟩ := h
  have hlen : u.length + old.length = s.length := by
    have := congrArg List.length hu
    simpa using this
  set k := s.length - old.length with hk
  have hks : k = u.length := by omega
  have hdropmap : (s.drop k).map lc = old.map lc := by
    rw [List.map_drop, ← hu, hks, List.drop_append_of_le_length le_rfl]
    simp
  have hci : ciEqL old (s.drop k) = true := by
    rw [ciEqL_iff, hdropmap]
  have hmh : matchHere old (s.drop k) = true := by
    refine matchHere_build hold (startsCI_of_ciEqL hci) ?_
    rw [List.drop_drop]
    have hkk : k + old.length = s.length := by omega
    rw [hkk, List.drop_length]
    rfl
  calc hasMatch old s = hasMatch old (s.take k ++ s.drop k) := by rw [List.take_append_drop]
    _ = true := hasMatch_append_left _ (matchHere_hasMatch hmh)

/-! ## Lemmas: the document layer -/

theorem Doc.myInduction {P : Doc → Prop}
    (hstr : ∀ s, P (.str s)) (hnum : ∀ n, P (.num n)) (hbool : ∀ b, P (.bool b))
    (hnull : P .null)
    (harr : ∀ xs, (∀ x ∈ xs, P x) → P (.arr xs))
    (hdict : ∀ kvs, (∀ kv ∈ kvs, P kv.2) → P (.dict kvs)) :
    ∀ d, P d
  | .str s => hstr s
  | .num n => hnum n
  | .bool b => hbool b
  | .null => hnull
  | .arr xs => harr xs (fun x hx =>
      Doc.myInduction hstr hnum hbool hnull harr hdict x)
  | .dict kvs => hdict kvs (fun kv hkv =>
      Doc.myInduction hstr hnum hbool hnull harr hdict kv.2)
termination_by d => sizeOf d
decreasing_by
  · have h1 := List.sizeOf_lt_of_mem hx
    simp only [Doc.arr.sizeOf_spec]
    omega
  · have h1 := List.sizeOf_lt_of_mem hkv
    have h2 : sizeOf kv.2 < sizeOf kv := by
      obtain ⟨k, v⟩ := kv
      simp only [Prod.mk.sizeOf_spec]
      omega
    simp only [Doc.dict.sizeOf_spec]
    omega

end HAER

namespace HAER

theorem rrList_spec (old new : String) (xs : List Doc)
    (ih : ∀ x ∈ xs, (rrChild old new x).1 = mapStrLeaves (pySub old new) x ∧
      ((rrChild old new x).2 = true ↔ mapStrLeaves (pySub old new) x ≠ x)) :
    (rrList old new xs).1 = msList (pySub old new) xs ∧
      ((rrList old new xs).2 = true ↔ msList (pySub old new) xs ≠ xs) := by
  induction xs with
  | nil => simp [rrList, msList]
  | cons v rest ihl =>
    have hv := ih v (List.mem_cons_self v rest)
    have hrest := ihl (fun x hx => ih x (List.mem_cons_of_mem v hx))
    constructor
    · simp only [rrList, msList]
      rw [hv.1, hrest.1]
    · simp only [rrList, msList, Bool.or_eq_true]
      rw [hv.2, hrest.2]
      constructor
      · intro h hc
        rw [List.cons.injEq] at hc
        rcases h with h | h
        · exact h hc.1
        · exact h hc.2
      · intro h
        by_contra hcon
        push_neg at hcon
        exact h (by rw [hcon.1, hcon.2])

theorem rrPairs_spec (old new : String) (kvs : List (String × Doc))
    (ih : ∀ kv ∈ kvs, (rrChild old new kv.2).1 = mapStrLeaves (pySub old new) kv.2 ∧
      ((rrChild old new kv.2).2 = true ↔ mapStrLeaves (pySub old new) kv.2 ≠ kv.2)) :
    (rrPairs old new kvs).1 = msPairs (pySub old new) kvs ∧
      ((rrPairs old new kvs).2 = true ↔ msPairs (pySub old new) kvs ≠ kvs) := by
  induction kvs with
  | nil => simp [rrPairs, msPairs]
  | cons kv rest ihl =>
    obtain ⟨k, v⟩ := kv
    have hv := ih (k, v) (List.mem_cons_self (k, v) rest)
    have hrest := ihl (fun x hx => ih x (List.mem_cons_of_mem (k, v) hx))
    constructor
    · simp only [rrPairs, msPairs]
      rw [hv.1, hrest.1]
    · simp only [rrPairs, msPairs, Bool.or_eq_true]
      rw [hv.2, hrest.2]
      constructor
      · intro h hc
        rw [List.cons.injEq, Prod.mk.injEq] at hc
        rcases h with h | h
        · exact h hc.1.2
        · exact h hc.2
      · intro h
        by_contra hcon
        push_neg at hcon
        exact h (by rw [hcon.1, hcon.2])

/-- `rrChild` computes `mapStrLeaves (pySub old new)` and its flag is true
exactly when that map changed the subtree. -/
theorem rrChild_spec (old new : String) :
    ∀ d, (rrChild old new d).1 = mapStrLeaves (pySub old new) d ∧
      ((rrChild old new d).2 = true ↔ mapStrLeaves (pySub old new) d ≠ d) := by
  refine Doc.myInduction ?_ ?_ ?_ ?_ ?_ ?_
  · intro s
    by_cases h : pySub old new s = s
    · constructor
      · simp [rrChild, mapStrLeaves, h]
      · simp [rrChild, mapStrLeaves, h]
    · constructor
      · simp [rrChild, mapStrLeaves, h]
      · simp [rrChild, mapStrLeaves, h]
  · intro n
    exact ⟨rfl, by simp [rrChild, mapStrLeaves]⟩
  · intro b
    exact ⟨rfl, by simp [rrChild, mapStrLeaves]⟩
  · exact ⟨rfl, by simp [rrChild, mapStrLeaves]⟩
  · intro xs ih
    have h := rrList_spec old new xs ih
    constructor
    · simp only [rrChild, mapStrLeaves]
      rw [h.1]
    · simp only [rrChild, mapStrLeaves]
      rw [h.2]
      simp [Doc.arr.injEq]
  · intro kvs ih
    have h := rrPairs_spec old new kvs ih
    constructor
    · simp only [rrChild, mapStrLeaves]
      rw [h.1]
    · simp only [rrChild, mapStrLeaves]
      rw [h.2]
      simp [Doc.dict.injEq]

theorem replace_eq_rrChild (old new : String) (d : Doc) (h : d.isContainer = true) :
    replace_references old new d = rrChild old new d := by
  cases d <;> simp_all [Doc.isContainer, replace_references, rrChild]

theorem replace_value (old new : String) (d : Doc) (h : d.isContainer = true) :
    (replace_references old new d).1 = mapStrLeaves (pySub old new) d := by
  rw [replace_eq_rrChild old new d h]
  exact (rrChild_spec old new d).1

/-- The returned flag is true iff the document changed (for any input). -/
theorem replace_flag (old new : String) (d : Doc) :
    ((replace_references old new d).2 = true ↔ (replace_references old new d).1 ≠ d) := by
  by_cases h : d.isContainer = true
  · rw [replace_eq_rrChild old new d h, (rrChild_spec old new d).1]
    exact (rrChild_spec old new d).2
  · have : replace_references old new d = (d, false) := by
      cases d <;> simp_all [Doc.isContainer, replace_references]
    rw [this]
    simp

theorem mapStrLeaves_container (f : String → String) (d : Doc)
    (h : d.isContainer = true) : (mapStrLeaves f d).isContainer = true := by
  cases d <;> simp_all [Doc.isContainer, mapStrLeaves]

end HAER

namespace HAER

/-! ## Lemmas: identifier shape facts -/

theorem lowerWord_toLower {c : Char} (h : isLowerWord c = true) : lc c = c := by
  simp only [isLowerWord, Bool.or_eq_true, Bool.and_eq_true, decide_eq_true_eq,
    beq_iff_eq] at h
  rcases h with (⟨h1, _⟩ | ⟨_, h2⟩) | h3
  · have hge : 97 ≤ c.toNat := h1
    unfold lc Char.toLower
    have hn : ¬ (c.toNat ≥ 65 ∧ c.toNat ≤ 90) := by omega
    simp [hn]
  · have hle : c.toNat ≤ 57 := h2
    unfold lc Char.toLower
    have hn : ¬ (c.toNat ≥ 65 ∧ c.toNat ≤ 90) := by omega
    simp [hn]
  · subst h3
    decide

theorem lowerWord_identCont {c : Char} (h : isLowerWord c = true) :
    isIdentCont c = true := by
  have hl := lowerWord_toLower h
  simp only [isIdentCont, hl]
  simp only [isLowerWord] at h
  simp only [Bool.or_eq_true] at h ⊢
  tauto

theorem entityIdShaped_decomp {l : List Char} (h : isEntityIdShapedL l = true) :
    ∃ w1 r2, l = w1 ++ '.' :: r2 ∧ w1 ≠ [] ∧ r2 ≠ [] ∧
      w1.all isLowerWord = true ∧ r2.all isLowerWord = true := by
  simp only [isEntityIdShapedL] at h
  split at h
  · rename_i r2 hdw
    simp only [Bool.and_eq_true, Bool.not_eq_true', List.isEmpty_eq_false] at h
    refine ⟨l.takeWhile isLowerWord, r2, ?_, ?_, ?_, ?_, ?_⟩
    · conv_lhs => rw [← List.takeWhile_append_dropWhile isLowerWord l, hdw]
    · simpa [List.isEmpty_iff] using h.1.1
    · simpa [List.isEmpty_iff] using h.1.2
    · rw [List.all_eq_true]
      intro x hx
      exact List.mem_takeWhile_imp hx
    · exact h.2
  · exact absurd h (by simp)

end HAER

namespace HAER

theorem entityIdShaped_ne_nil {l : List Char} (h : isEntityIdShapedL l = true) :
    l ≠ [] := by
  obtain ⟨w1, r2, hl, -, -, -, -⟩ := entityIdShaped_decomp h
  subst hl
  simp

theorem entityIdShaped_all_identCont {l : List Char} (h : isEntityIdShapedL l = true) :
    l.all isIdentCont = true := by
  obtain ⟨w1, r2, hl, -, -, hw1, hr2⟩ := entityIdShaped_decomp h
  subst hl
  rw [List.all_eq_true] at hw1 hr2 ⊢
  intro x hx
  rcases List.mem_append.mp hx with hx1 | hx2
  · exact lowerWord_identCont (hw1 x hx1)
  · rcases List.mem_cons.mp hx2 with rfl | hx3
    · decide
    · exact lowerWord_identCont (hr2 x hx3)

theorem entityIdShaped_map_lc {l : List Char} (h : isEntityIdShapedL l = true) :
    l.map lc = l := by
  obtain ⟨w1, r2, hl, -, -, hw1, hr2⟩ := entityIdShaped_decomp h
  subst hl
  rw [List.all_eq_true] at hw1 hr2
  have hall : ∀ x ∈ w1 ++ '.' :: r2, lc x = x := by
    intro x hx
    rcases List.mem_append.mp hx with hx1 | hx2
    · exact lowerWord_toLower (hw1 x hx1)
    · rcases List.mem_cons.mp hx2 with rfl | hx3
      · decide
      · exact lowerWord_toLower (hr2 x hx3)
  exact (List.map_congr_left hall).trans (List.map_id _)

theorem ciEqL_iff_eq_of_shaped {a b : List Char} (ha : isEntityIdShapedL a = true)
    (hb : isEntityIdShapedL b = true) : ciEqL a b = true ↔ a = b := by
  rw [ciEqL_iff, entityIdShaped_map_lc ha, entityIdShaped_map_lc hb]

/-! ## Lemmas: idempotence at document level -/

theorem rrChild_fixpoint {f0 : String → String} (old new : String)
    (hfix : ∀ s : String, pySub old new (f0 s) = f0 s) :
    ∀ d, rrChild old new (mapStrLeaves f0 d) = (mapStrLeaves f0 d, false) := by
  refine Doc.myInduction ?_ ?_ ?_ ?_ ?_ ?_
  · intro s
    simp [mapStrLeaves, rrChild, hfix s]
  · intro n; rfl
  · intro b; rfl
  · rfl
  · intro xs ih
    have key : ∀ (l : List Doc), (∀ x ∈ l, rrChild old new (mapStrLeaves f0 x) =
        (mapStrLeaves f0 x, false)) →
        rrList old new (msList f0 l) = (msList f0 l, false) := by
      intro l
      induction l with
      | nil => intro _; rfl
      | cons v rest ihl =>
        intro hl
        have hv := hl v (List.mem_cons_self v rest)
        have hrest := ihl (fun x hx => hl x (List.mem_cons_of_mem v hx))
        simp [msList, rrList, hv, hrest]
    simp only [mapStrLeaves, rrChild]
    rw [key xs ih]
  · intro kvs ih
    have key : ∀ (l : List (String × Doc)), (∀ kv ∈ l, rrChild old new (mapStrLeaves f0 kv.2) =
        (mapStrLeaves f0 kv.2, false)) →
        rrPairs old new (msPairs f0 l) = (msPairs f0 l, false) := by
      intro l
      induction l with
      | nil => intro _; rfl
      | cons kv rest ihl =>
        intro hl
        obtain ⟨k, v⟩ := kv
        have hv := hl (k, v) (List.mem_cons_self (k, v) rest)
        have hrest := ihl (fun x hx => hl x (List.mem_cons_of_mem (k, v) hx))
        simp only [msPairs, rrPairs]
        rw [hv, hrest]
        simp
    simp only [mapStrLeaves, rrChild]
    rw [key kvs ih]

/-- Document-level idempotence, given string-level idempotence. -/
theorem replace_references_idem_of_leaf (old new : String)
    (hleaf : ∀ s : String, pySub old new (pySub old new s) = pySub old new s)
    (d : Doc) :
    replace_references old new (replace_references old new d).1 =
      ((replace_references old new d).1, false) := by
  by_cases h : d.isContainer = true
  · have h1 := replace_value old new d h
    have h2 : (replace_references old new d).1.isContainer = true := by
      rw [h1]; exact mapStrLeaves_container _ d h
    rw [replace_eq_rrChild old new _ h2, h1]
    exact rrChild_fixpoint old new hleaf d
  · have : replace_references old new d = (d, false) := by
      cases d <;> simp_all [Doc.isContainer, replace_references]
    rw [this]
    exact this

end HAER

namespace HAER

/-! ## Lemmas: frame condition -/

theorem frameOK_refl (old : String) : ∀ d, frameOK old d d = true := by
  refine Doc.myInduction ?_ ?_ ?_ ?_ ?_ ?_
  · intro s
    by_cases h : hasMatch old.data s.data = true <;> simp [frameOK, h]
  · intro n; simp [frameOK]
  · intro b; simp [frameOK]
  · simp [frameOK]
  · intro xs ih
    have key : ∀ (l : List Doc), (∀ x ∈ l, frameOK old x x = true) →
        frameOKList old l l = true := by
      intro l
      induction l with
      | nil => intro _; rfl
      | cons v rest ihl =>
        intro hl
        simp only [frameOKList, Bool.and_eq_true]
        exact ⟨hl v (List.mem_cons_self v rest),
          ihl (fun x hx => hl x (List.mem_cons_of_mem v hx))⟩
    simpa [frameOK] using key xs ih
  · intro kvs ih
    have key : ∀ (l : List (String × Doc)), (∀ kv ∈ l, frameOK old kv.2 kv.2 = true) →
        frameOKPairs old l l = true := by
      intro l
      induction l with
      | nil => intro _; rfl
      | cons kv rest ihl =>
        intro hl
        obtain ⟨k, v⟩ := kv
        simp only [frameOKPairs, Bool.and_eq_true]
        exact ⟨⟨by simp, hl (k, v) (List.mem_cons_self (k, v) rest)⟩,
          ihl (fun x hx => hl x (List.mem_cons_of_mem (k, v) hx))⟩
    simpa [frameOK] using key kvs ih

theorem frameOK_mapStrLeaves (old new : String) (hold : old.data ≠ []) :
    ∀ d, frameOK old d (mapStrLeaves (pySub old new) d) = true := by
  refine Doc.myInduction ?_ ?_ ?_ ?_ ?_ ?_
  · intro s
    by_cases h : hasMatch old.data s.data = true
    · simp [mapStrLeaves, frameOK, h]
    · have hid : pySub old new s = s := by
        have := pySub_no_match_id old.data new.data hold s.data (Bool.not_eq_true _ ▸ h)
        simp only [pySub, this]
      simp [mapStrLeaves, frameOK, h, hid]
  · intro n; simp [mapStrLeaves, frameOK]
  · intro b; simp [mapStrLeaves, frameOK]
  · simp [mapStrLeaves, frameOK]
  · intro xs ih
    have key : ∀ (l : List Doc), (∀ x ∈ l, frameOK old x (mapStrLeaves (pySub old new) x) = true) →
        frameOKList old l (msList (pySub old new) l) = true := by
      intro l
      induction l with
      | nil => intro _; rfl
      | cons v rest ihl =>
        intro hl
        simp only [msList, frameOKList, Bool.and_eq_true]
        exact ⟨hl v (List.mem_cons_self v rest),
          ihl (fun x hx => hl x (List.mem_cons_of_mem v hx))⟩
    simpa [frameOK, mapStrLeaves] using key xs ih
  · intro kvs ih
    have key : ∀ (l : List (String × Doc)),
        (∀ kv ∈ l, frameOK old kv.2 (mapStrLeaves (pySub old new) kv.2) = true) →
        frameOKPairs old l (msPairs (pySub old new) l) = true := by
      intro l
      induction l with
      | nil => intro _; rfl
      | cons kv rest ihl =>
        intro hl
        obtain ⟨k, v⟩ := kv
        simp only [msPairs, frameOKPairs, Bool.and_eq_true]
        exact ⟨⟨by simp, hl (k, v) (List.mem_cons_self (k, v) rest)⟩,
          ihl (fun x hx => hl x (List.mem_cons_of_mem (k, v) hx))⟩
    simpa [frameOK, mapStrLeaves] using key kvs ih

/-! ## Lemmas: the dashboard rewriter -/

theorem drList_spec (old new : String) (xs : List Doc)
    (ih : ∀ x ∈ xs, (Dashboards.drChild old new x).1 =
        mapStrLeaves (fun s => if s = old then new else s) x ∧
      ((Dashboards.drChild old new x).2 = true ↔ hasStrLeaf old x = true)) :
    (Dashboards.drList old new xs).1 = msList (fun s => if s = old then new else s) xs ∧
      ((Dashboards.drList old new xs).2 = true ↔ hslList old xs = true) := by
  induction xs with
  | nil => simp [Dashboards.drList, msList, hslList]
  | cons v rest ihl =>
    have hv := ih v (List.mem_cons_self v rest)
    have hrest := ihl (fun x hx => ih x (List.mem_cons_of_mem v hx))
    constructor
    · simp only [Dashboards.drList, msList]
      rw [hv.1, hrest.1]
    · simp only [Dashboards.drList, hslList, Bool.or_eq_true]
      rw [hv.2, hrest.2]

theorem drPairs_spec (old new : String) (kvs : List (String × Doc))
    (ih : ∀ kv ∈ kvs, (Dashboards.drChild old new kv.2).1 =
        mapStrLeaves (fun s => if s = old then new else s) kv.2 ∧
      ((Dashboards.drChild old new kv.2).2 = true ↔ hasStrLeaf old kv.2 = true)) :
    (Dashboards.drPairs old new kvs).1 = msPairs (fun s => if s = old then new else s) kvs ∧
      ((Dashboards.drPairs old new kvs).2 = true ↔ hslPairs old kvs = true) := by
  induction kvs with
  | nil => simp [Dashboards.drPairs, msPairs, hslPairs]
  | cons kv rest ihl =>
    obtain ⟨k, v⟩ := kv
    have hv := ih (k, v) (List.mem_cons_self (k, v) rest)
    have hrest := ihl (fun x hx => ih x (List.mem_cons_of_mem (k, v) hx))
    constructor
    · simp only [Dashboards.drPairs, msPairs]
      rw [hv.1, hrest.1]
    · simp only [Dashboards.drPairs, hslPairs, Bool.or_eq_true]
      rw [hv.2, hrest.2]

theorem drChild_spec (old new : String) :
    ∀ d, (Dashboards.drChild old new d).1 =
        mapStrLeaves (fun s => if s = old then new else s) d ∧
      ((Dashboards.drChild old new d).2 = true ↔ hasStrLeaf old d = true) := by
  refine Doc.myInduction ?_ ?_ ?_ ?_ ?_ ?_
  · intro s
    by_cases h : s = old
    · constructor
      · simp [Dashboards.drChild, mapStrLeaves, h]
      · simp [Dashboards.drChild, hasStrLeaf, h]
    · constructor
      · simp [Dashboards.drChild, mapStrLeaves, h]
      · simp [Dashboards.drChild, hasStrLeaf, h]
  · intro n
    exact ⟨rfl, by simp [Dashboards.drChild, hasStrLeaf]⟩
  · intro b
    exact ⟨rfl, by simp [Dashboards.drChild, hasStrLeaf]⟩
  · exact ⟨rfl, by simp [Dashboards.drChild, hasStrLeaf]⟩
  · intro xs ih
    have h := drList_spec old new xs ih
    constructor
    · simp only [Dashboards.drChild, mapStrLeaves]
      rw [h.1]
    · simp only [Dashboards.drChild, hasStrLeaf]
      rw [h.2]
  · intro kvs ih
    have h := drPairs_spec old new kvs ih
    constructor
    · simp only [Dashboards.drChild, mapStrLeaves]
      rw [h.1]
    · simp only [Dashboards.drChild, hasStrLeaf]
      rw [h.2]

theorem dashboards_replace_eq_drChild (old new : String) (d : Doc)
    (h : d.isContainer = true) :
    Dashboards.replace_references old new d = Dashboards.drChild old new d := by
  cases d <;> simp_all [Doc.isContainer, Dashboards.replace_references, Dashboards.drChild]

end HAER

namespace HAER

/-! ## Claim theorems: C1, C4, C10 -/

/-- Claim C1, counterexample to the claim as stated: the dashboard
orchestrator's own `replace_references` (cited by the claim) does NOT rewrite
a leaf containing `states(…light.old…)` — the leaf carries a right-bounded
occurrence of `light.old`, the claim demands it be rewritten to the
`light.new` form with `true` returned, but the call leaves the document
unchanged and returns `false`. -/
theorem C1_counterexample :
    hasMatch "light.old".data stExprOld.data = true ∧
    Dashboards.replace_references "light.old" "light.new"
        (Doc.dict [("card", Doc.str stExprOld)]) =
      (Doc.dict [("card", Doc.str stExprOld)], false) := by
  constructor
  · decide
  · rfl

/-- Claim C1 (amended): the shared rewriter `common.replace_references`
satisfies the claim: (i) it maps every string leaf below a container through
the boundary-safe substitution; (ii) a leaf changes exactly when it carries
an occurrence of `old` (case-insensitively) not followed by a letter, digit,
underscore, dot or hyphen; (iii) it returns true iff at least one leaf
changed; (iv)–(vi) it leaves `light.old_switch` alone, rewrites
`states(…light.old…)` to `states(…light.new…)`, and replaces every
occurrence within a leaf.  The dashboard-specific `replace_references`
instead (vii) replaces exactly the leaves equal to `old` and (viii) reports
true iff such a leaf exists. -/
theorem C1_boundary_rewrite (old new : String)
    (h1 : isEntityIdShaped old = true) (h2 : isEntityIdShaped new = true)
    (hne : old ≠ new) :
    (∀ d : Doc, d.isContainer = true →
        (replace_references old new d).1 = mapStrLeaves (pySub old new) d) ∧
    (∀ s : String, pySub old new s ≠ s ↔ hasMatch old.data s.data = true) ∧
    (∀ d : Doc, (replace_references old new d).2 = true ↔
        (replace_references old new d).1 ≠ d) ∧
    pySub "light.old" "light.new" "light.old_switch" = "light.old_switch" ∧
    pySub "light.old" "light.new" stExprOld = stExprNew ∧
    pySub "light.old" "light.new" (stExprOld ++ " " ++ stExprOld) =
      (stExprNew ++ " " ++ stExprNew) ∧
    (∀ d : Doc, d.isContainer = true →
        (Dashboards.replace_references old new d).1 =
          mapStrLeaves (fun s => if s = old then new else s) d) ∧
    (∀ d : Doc, d.isContainer = true →
        ((Dashboards.replace_references old new d).2 = true ↔ hasStrLeaf old d = true)) := by
  have holdne : old.data ≠ [] := entityIdShaped_ne_nil h1
  have hciF : ciEqL old.data new.data = false := by
    by_contra hcon
    rw [Bool.not_eq_false] at hcon
    rw [ciEqL_iff_eq_of_shaped h1 h2] at hcon
    exact hne (by
      cases old
      cases new
      exact congrArg String.mk hcon)
  refine ⟨?_, ?_, ?_, by decide, by decide, by decide, ?_, ?_⟩
  · intro d hd
    exact replace_value old new d hd
  · intro s
    have := pySub_changes_iff old.data new.data holdne hciF s.data
    constructor
    · intro hch
      refine this.mp ?_
      intro hdata
      exact hch (by simp only [pySub, hdata])
    · intro hm heq
      refine this.mpr hm ?_
      have : (pySub old new s).data = s.data := congrArg String.data heq
      simpa [pySub] using this
  · intro d
    exact replace_flag old new d
  · intro d hd
    rw [dashboards_replace_eq_drChild old new d hd]
    exact (drChild_spec old new d).1
  · intro d hd
    rw [dashboards_replace_eq_drChild old new d hd]
    exact (drChild_spec old new d).2

/-- Claim C1 witness: the theorem applied at the identifiers of the claim. -/
theorem C1_boundary_rewrite_witness :
    pySub "light.old" "light.new" stExprOld = stExprNew :=
  (C1_boundary_rewrite "light.old" "light.new" (by decide) (by decide)
    (by decide)).2.2.2.2.1

/-- Claim C4, counterexample to the claim as stated: with `old = xa.b` and
`new = a.b` (both identifier-shaped, and `new` does not contain `old` as a
right-unbounded substring — indeed contains it not at all), the document
`["xxa.b"]` rewrites to `["xa.b"]`, and the second application is NOT a
no-op: it rewrites again to `["a.b"]` and returns true.  The copied prefix
`x` and the replacement `a.b` together re-create an occurrence of `old`. -/
theorem C4_counterexample :
    isEntityIdShaped "xa.b" = true ∧ isEntityIdShaped "a.b" = true ∧
    hasMatch "xa.b".data "a.b".data = false ∧
    replace_references "xa.b" "a.b" (Doc.arr [Doc.str "xxa.b"]) =
      (Doc.arr [Doc.str "xa.b"], true) ∧
    replace_references "xa.b" "a.b" (Doc.arr [Doc.str "xa.b"]) =
      (Doc.arr [Doc.str "a.b"], true) := by
  refine ⟨by decide, by decide, by decide, ?_, ?_⟩ <;> rfl

/-- Claim C4 (amended): the rewriter is idempotent — the second application
returns the first result unchanged with `false` — for identifier-shaped `old`
and `new` such that `new` contains no right-unbounded occurrence of `old`
(the claim's hypothesis) and additionally the lowercase form of `new` is not
a proper suffix of that of `old` (the condition the counterexample forces). -/
theorem C4_rewriter_idempotent (old new : String)
    (h1 : isEntityIdShaped old = true) (h2 : isEntityIdShaped new = true)
    (hb : hasMatch old.data new.data = false)
    (hc : ¬ (new.data.map lc <:+ old.data.map lc)) :
    ∀ d : Doc, replace_references old new (replace_references old new d).1 =
      ((replace_references old new d).1, false) := by
  intro d
  apply replace_references_idem_of_leaf
  intro s
  have holdne : old.data ≠ [] := entityIdShaped_ne_nil h1
  have hnewne : new.data ≠ [] := entityIdShaped_ne_nil h2
  have hallO := entityIdShaped_all_identCont (l := old.data) h1
  have hallN := entityIdShaped_all_identCont (l := new.data) h2
  have hb' : ¬ (old.data.map lc <:+ new.data.map lc) := by
    intro hsuf
    rw [hasMatch_of_ci_suffix holdne hsuf] at hb
    exact Bool.false_ne_true hb.symm
  simp only [pySub]
  exact congrArg String.mk
    (pySubL_idem old.data new.data holdne hnewne hallO hallN hb' hc s.data)

/-- Claim C4 witness: idempotence at the claim's own identifiers on a
document that the first pass really changes. -/
theorem C4_rewriter_idempotent_witness :
    replace_references "light.old" "light.new"
        (replace_references "light.old" "light.new" (Doc.arr [Doc.str stExprOld])).1 =
      ((replace_references "light.old" "light.new" (Doc.arr [Doc.str stExprOld])).1, false) :=
  C4_rewriter_idempotent "light.old" "light.new" (by decide) (by decide) (by decide)
    (by decide) (Doc.arr [Doc.str stExprOld])

/-- Claim C10: `common.replace_references` touches only string leaves with a
right-bounded occurrence of the old identifier: mapping keys (in order),
sequence lengths, non-string scalars and unmatched string leaves all survive
unchanged (`frameOK` states exactly these conditions). -/
theorem C10_frame (old new : String) (h1 : isEntityIdShaped old = true) (d : Doc) :
    frameOK old d (replace_references old new d).1 = true := by
  by_cases hc : d.isContainer = true
  · rw [replace_value old new d hc]
    exact frameOK_mapStrLeaves old new (entityIdShaped_ne_nil h1) d
  · have : replace_references old new d = (d, false) := by
      cases d <;> simp_all [Doc.isContainer, replace_references]
    rw [this]
    exact frameOK_refl old d

/-- Claim C10 witness: the frame condition at the claim's identifiers, over a
mixed document. -/
theorem C10_frame_witness :
    frameOK "light.old"
      (Doc.dict [("a", Doc.num 3), ("b", Doc.str stExprOld),
        ("c", Doc.arr [Doc.bool true, Doc.null, Doc.str "keep.me"])])
      (replace_references "light.old" "light.new"
        (Doc.dict [("a", Doc.num 3), ("b", Doc.str stExprOld),
          ("c", Doc.arr [Doc.bool true, Doc.null, Doc.str "keep.me"])])).1 = true :=
  C10_frame "light.old" "light.new" (by decide) _

end HAER

namespace HAER

/-! ## Lemmas: the serialized-text scanner -/

theorem takeWhile_cons_neg {p : Char → Bool} {a : Char} {l : List Char}
    (h : p a = false) : (a :: l).takeWhile p = [] := by
  simp [List.takeWhile_cons, h]

theorem dropWhile_cons_neg {p : Char → Bool} {a : Char} {l : List Char}
    (h : p a = false) : (a :: l).dropWhile p = a :: l := by
  simp [List.dropWhile_cons, h]

theorem takeWhile_append_all {p : Char → Bool} {a : List Char} (t : List Char)
    (h : a.all p = true) : (a ++ t).takeWhile p = a ++ t.takeWhile p := by
  induction a with
  | nil => simp
  | cons c cs ih =>
    simp only [List.all_cons, Bool.and_eq_true] at h
    simp [List.takeWhile_cons, h.1, ih h.2]

theorem dropWhile_append_all {p : Char → Bool} {a : List Char} (t : List Char)
    (h : a.all p = true) : (a ++ t).dropWhile p = t.dropWhile p := by
  induction a with
  | nil => simp
  | cons c cs ih =>
    simp only [List.all_cons, Bool.and_eq_true] at h
    simp [List.dropWhile_cons, h.1, ih h.2]

theorem takeWhile_all (p : Char → Bool) (l : List Char) :
    (l.takeWhile p).all p = true := by
  rw [List.all_eq_true]
  intro x hx
  exact List.mem_takeWhile_imp hx

/-- Structure of a successful head match of the quoted-identifier pattern. -/
theorem matchQuoted_some_struct {s cap r : List Char}
    (h : matchQuoted s = some (cap, r)) :
    ∃ w1 w2, s = '"' :: (w1 ++ '.' :: (w2 ++ '"' :: r)) ∧ w1 ≠ [] ∧ w2 ≠ [] ∧
      w1.all isWordChar = true ∧ w2.all isWordChar = true ∧ cap = w1 ++ '.' :: w2 := by
  cases s with
  | nil => simp [matchQuoted] at h
  | cons c rest =>
    simp only [matchQuoted] at h
    split at h
    case isFalse => simp at h
    case isTrue hc =>
      subst hc
      split at h
      case h_2 => simp at h
      case h_1 d r2 hdw =>
        split at h
        case isFalse => simp at h
        case isTrue hd =>
          subst hd
          split at h
          case h_2 => simp at h
          case h_1 q r4 hdw2 =>
            split at h
            case isFalse => simp at h
            case isTrue hq =>
              subst hq
              split at h
              case isTrue => simp at h
              case isFalse hne =>
                simp only [Option.some.injEq, Prod.mk.injEq] at h
                obtain ⟨hcap, hr⟩ := h
                subst hr
                rw [Bool.not_eq_true, Bool.or_eq_false_iff] at hne
                refine ⟨rest.takeWhile isWordChar, r2.takeWhile isWordChar, ?_, ?_, ?_,
                  takeWhile_all _ _, takeWhile_all _ _, hcap.symm⟩
                · have e1 : rest = rest.takeWhile isWordChar ++ ('.' :: r2) := by
                    conv_lhs => rw [← List.takeWhile_append_dropWhile isWordChar rest, hdw]
                  have e2 : r2 = r2.takeWhile isWordChar ++ ('"' :: r4) := by
                    conv_lhs => rw [← List.takeWhile_append_dropWhile isWordChar r2, hdw2]
                  rw [List.cons.injEq]
                  refine ⟨rfl, ?_⟩
                  conv_lhs => rw [e1]
                  rw [List.append_cancel_left_eq, List.cons.injEq]
                  exact ⟨rfl, e2⟩
                · simpa [List.isEmpty_iff] using hne.1
                · simpa [List.isEmpty_iff] using hne.2

/-- The successful-match tail is strictly shorter than the input. -/
theorem matchQuoted_rest_lt {s cap r : List Char} (h : matchQuoted s = some (cap, r)) :
    r.length < s.length := by
  obtain ⟨w1, w2, hs, -, -, -, -, -⟩ := matchQuoted_some_struct h
  rw [hs]
  simp only [List.length_cons, List.length_append]
  omega

end HAER

namespace HAER

/-- The pattern succeeds exactly at a serialized identifier-shaped leaf. -/
theorem matchQuoted_at_region {w1 w2 B : List Char} (h1 : w1 ≠ []) (h2 : w2 ≠ [])
    (ha1 : w1.all isWordChar = true) (ha2 : w2.all isWordChar = true) :
    matchQuoted ('"' :: ((w1 ++ '.' :: w2) ++ '"' :: B)) = some (w1 ++ '.' :: w2, B) := by
  have hdot : isWordChar '.' = false := by decide
  have hq : isWordChar '"' = false := by decide
  have e0 : (w1 ++ '.' :: w2) ++ '"' :: B = w1 ++ '.' :: (w2 ++ '"' :: B) := by simp
  have edw1 : ((w1 ++ '.' :: w2) ++ '"' :: B).dropWhile isWordChar = '.' :: (w2 ++ '"' :: B) := by
    rw [e0, dropWhile_append_all _ ha1, dropWhile_cons_neg hdot]
  have etw1 : ((w1 ++ '.' :: w2) ++ '"' :: B).takeWhile isWordChar = w1 := by
    rw [e0, takeWhile_append_all _ ha1, takeWhile_cons_neg hdot, List.append_nil]
  have edw2 : (w2 ++ '"' :: B).dropWhile isWordChar = '"' :: B := by
    rw [dropWhile_append_all _ ha2, dropWhile_cons_neg hq]
  have etw2 : (w2 ++ '"' :: B).takeWhile isWordChar = w2 := by
    rw [takeWhile_append_all _ ha2, takeWhile_cons_neg hq, List.append_nil]
  rw [matchQuoted]
  simp only [edw1, etw1, edw2, etw2]
  simp [List.isEmpty_iff, h1, h2]

/-- A successful match that starts strictly inside a prefix `A` ending in a
non-word character cannot reach past the quote that opens the following
serialized leaf: it consumes part of `A` only. -/
theorem matchQuoted_bound {A t cap r : List Char} (hA : A ≠ [])
    (hlast : ∀ c, A.getLast? = some c → isWordChar c = false)
    (h : matchQuoted (A ++ '"' :: t) = some (cap, r)) :
    ∃ A2, A2 <:+ A ∧ A2.length < A.length ∧ r = A2 ++ '"' :: t := by
  obtain ⟨w1, w2, hs, hw1, hw2, ha1, ha2, -⟩ := matchQuoted_some_struct h
  have hqw1 : '"' ∉ w1 := by
    intro hmem
    have := List.all_eq_true.mp ha1 _ hmem
    simp [isWordChar, lc] at this
  have hqw2 : '"' ∉ w2 := by
    intro hmem
    have := List.all_eq_true.mp ha2 _ hmem
    simp [isWordChar, lc] at this
  set C : List Char := '"' :: (w1 ++ '.' :: (w2 ++ ['"'])) with hC
  have hCr : A ++ '"' :: t = C ++ r := by
    rw [hs, hC]
    simp
  have hClen : C.length = w1.length + w2.length + 3 := by
    rw [hC]
    simp
    omega
  rcases le_or_lt C.length A.length with hle | hlt
  · have htake : A.take C.length = C := by
      have hx := congrArg (List.take C.length) hCr
      rw [List.take_append_of_le_length hle, List.take_left] at hx
      exact hx
    have hdropr : r = A.drop C.length ++ '"' :: t := by
      have hx := congrArg (List.drop C.length) hCr
      rw [List.drop_append_of_le_length hle, List.drop_left] at hx
      exact hx.symm
    refine ⟨A.drop C.length, List.drop_suffix _ _, ?_, hdropr⟩
    have hApos : 0 < A.length := List.length_pos.mpr hA
    simp only [List.length_drop]
    omega
  · exfalso
    have htake : A = C.take A.length := by
      have hx := congrArg (List.take A.length) hCr
      rw [List.take_left, List.take_append_of_le_length (Nat.le_of_lt hlt)] at hx
      exact hx
    have hdrop : C.drop A.length ++ r = '"' :: t := by
      have hx := congrArg (List.drop A.length) hCr
      rw [List.drop_left, List.drop_append_of_le_length (Nat.le_of_lt hlt)] at hx
      exact hx.symm
    obtain ⟨c0, cr, hcr⟩ : ∃ c0 cr, C.drop A.length = c0 :: cr := by
      cases hcc : C.drop A.length with
      | nil =>
        have := congrArg List.length hcc
        simp only [List.length_drop, List.length_nil] at this
        omega
      | cons c0 cr => exact ⟨c0, cr, rfl⟩
    have hc0 : c0 = '"' := by
      rw [hcr] at hdrop
      simp only [List.cons_append, List.cons.injEq] at hdrop
      exact hdrop.1
    subst hc0
    have hCsplit : C = A ++ '"' :: cr := by
      conv_lhs => rw [← List.take_append_drop A.length C, ← htake, hcr]
    obtain ⟨a0, A2, ha0⟩ : ∃ a0 A2, A = a0 :: A2 := by
      cases A with
      | nil => exact absurd rfl hA
      | cons a0 A2 => exact ⟨a0, A2, rfl⟩
    rw [ha0] at hCsplit
    rw [hC] at hCsplit
    simp only [List.cons_append, List.cons.injEq] at hCsplit
    obtain ⟨-, hmid⟩ := hCsplit
    -- hmid : w1 ++ '.' :: (w2 ++ ['"']) = A2 ++ '"' :: cr, quote-free on the left middle
    have hmid' : (w1 ++ '.' :: w2) ++ ['"'] = A2 ++ '"' :: cr := by
      rw [← hmid]
      simp
    set M : List Char := w1 ++ '.' :: w2 with hM
    have hqM : '"' ∉ M := by
      rw [hM]
      intro hmem
      rcases List.mem_append.mp hmem with hm1 | hm2
      · exact hqw1 hm1
      · rcases List.mem_cons.mp hm2 with he | hm3
        · exact absurd he (by decide)
        · exact hqw2 hm3
    rcases Nat.lt_trichotomy A2.length M.length with hl2 | he2 | hg2
    · -- the separating quote would sit inside the quote-free middle
      have hx := congrArg (List.take (A2.length + 1)) hmid'
      rw [List.take_append_of_le_length (by omega)] at hx
      rw [List.take_append] at hx
      simp only [List.take_succ_cons, List.take_zero] at hx
      have hqin : '"' ∈ M.take (A2.length + 1) := by
        rw [hx]
        simp
      exact hqM (List.take_subset _ _ hqin)
    · obtain ⟨hAM, -⟩ := List.append_inj hmid'.symm he2
      -- A ends with the last character of w2, a word character
      obtain ⟨w2i, wl, hwl⟩ := (List.eq_nil_or_concat w2).resolve_left hw2
      rw [List.concat_eq_append] at hwl
      have hlastA : A.getLast? = some wl := by
        rw [ha0, hAM, hM, hwl]
        rw [show a0 :: (w1 ++ '.' :: (w2i ++ [wl])) = (a0 :: (w1 ++ '.' :: w2i)) ++ [wl] by
          simp]
        exact List.getLast?_concat _
      have hword : isWordChar wl = true := by
        refine List.all_eq_true.mp ha2 wl ?_
        rw [hwl]
        exact List.mem_append.mpr (Or.inr (List.mem_cons_self wl []))
      rw [hlast wl hlastA] at hword
      exact Bool.false_ne_true hword
    · have hx := congrArg List.length hmid'
      simp only [List.length_append, List.length_cons, List.length_nil] at hx
      omega

end HAER

namespace HAER

theorem findAllF_congr : ∀ (f1 f2 : Nat) (s : List Char), s.length ≤ f1 →
    s.length ≤ f2 → findAllF f1 s = findAllF f2 s := by
  intro f1
  induction f1 with
  | zero =>
    intro f2 s hs1 _
    have : s = [] := List.eq_nil_of_length_eq_zero (Nat.le_zero.mp hs1)
    subst this
    cases f2 <;> rfl
  | succ f1 ih =>
    intro f2 s hs1 hs2
    cases s with
    | nil => cases f2 <;> rfl
    | cons c rest =>
      cases f2 with
      | zero => simp at hs2
      | succ f2 =>
        simp only [findAllF]
        cases hmq : matchQuoted (c :: rest) with
        | some p =>
          obtain ⟨cap, r⟩ := p
          have hlt := matchQuoted_rest_lt hmq
          simp only [List.length_cons] at hs1 hs2 hlt
          show cap :: findAllF f1 r = cap :: findAllF f2 r
          rw [ih f2 r (by omega) (by omega)]
        | none =>
          simp only [List.length_cons] at hs1 hs2
          show findAllF f1 rest = findAllF f2 rest
          exact ih f2 rest (by omega) (by omega)

theorem findAll_cons_some {c : Char} {t cap r : List Char}
    (h : matchQuoted (c :: t) = some (cap, r)) :
    findAll (c :: t) = cap :: findAll r := by
  have hlt := matchQuoted_rest_lt h
  simp only [List.length_cons] at hlt
  simp only [findAll, List.length_cons, findAllF, h]
  rw [findAllF_congr t.length r.length r (by omega) le_rfl]

theorem findAll_cons_none {c : Char} {t : List Char}
    (h : matchQuoted (c :: t) = none) :
    findAll (c :: t) = findAll t := by
  simp only [findAll, List.length_cons, findAllF, h]

/-- The scan reports the identifier of every serialized exact leaf: a leaf
region preceded by text ending in a non-word character is always captured. -/
theorem findAll_mem_quoted (w1 w2 : List Char) (h1 : w1 ≠ []) (h2 : w2 ≠ [])
    (ha1 : w1.all isWordChar = true) (ha2 : w2.all isWordChar = true) :
    ∀ (n : Nat) (A B : List Char), A.length ≤ n →
      (∀ c, A.getLast? = some c → isWordChar c = false) →
      (w1 ++ '.' :: w2) ∈ findAll (A ++ '"' :: ((w1 ++ '.' :: w2) ++ '"' :: B)) := by
  intro n
  induction n with
  | zero =>
    intro A B hA _
    have : A = [] := List.eq_nil_of_length_eq_zero (Nat.le_zero.mp hA)
    subst this
    rw [List.nil_append, findAll_cons_some (matchQuoted_at_region h1 h2 ha1 ha2)]
    exact List.mem_cons_self _ _
  | succ n ih =>
    intro A B hA hlast
    cases hAe : A with
    | nil =>
      subst hAe
      rw [List.nil_append, findAll_cons_some (matchQuoted_at_region h1 h2 ha1 ha2)]
      exact List.mem_cons_self _ _
    | cons a0 A1 =>
      subst hAe
      rw [List.cons_append]
      cases hmq : matchQuoted (a0 :: (A1 ++ '"' :: ((w1 ++ '.' :: w2) ++ '"' :: B))) with
      | some p =>
        obtain ⟨cap, r⟩ := p
        have hmq' : matchQuoted ((a0 :: A1) ++ '"' :: ((w1 ++ '.' :: w2) ++ '"' :: B)) =
            some (cap, r) := by
          rw [List.cons_append]
          exact hmq
        obtain ⟨A2, hsuf, hlen2, hr⟩ := matchQuoted_bound (by simp) hlast hmq'
        rw [findAll_cons_some hmq]
        refine List.mem_cons_of_mem _ ?_
        rw [hr]
        refine ih A2 B ?_ ?_
        · simp only [List.length_cons] at hA hlen2
          omega
        · intro c hc
          by_cases hA2e : A2 = []
          · subst hA2e
            simp at hc
          · obtain ⟨u, hu⟩ := hsuf
            refine hlast c ?_
            rw [← hu, List.getLast?_append_of_ne_nil u hA2e]
            exact hc
      | none =>
        rw [findAll_cons_none hmq]
        refine ih A1 B ?_ ?_
        · simp only [List.length_cons] at hA
          omega
        · intro c hc
          by_cases hA1e : A1 = []
          · subst hA1e
            simp at hc
          · refine hlast c ?_
            rw [show a0 :: A1 = [a0] ++ A1 from rfl,
              List.getLast?_append_of_ne_nil [a0] hA1e]
            exact hc

end HAER

namespace HAER

theorem escChar_id {c : Char} (h : isLowerWord c = true ∨ c = '.') :
    escChar c = [c] := by
  have hbounds : (97 ≤ c.toNat ∧ c.toNat ≤ 122) ∨ (48 ≤ c.toNat ∧ c.toNat ≤ 57) ∨
      c.toNat = 95 ∨ c.toNat = 46 := by
    rcases h with h | rfl
    · simp only [isLowerWord, Bool.or_eq_true, Bool.and_eq_true, decide_eq_true_eq,
        beq_iff_eq] at h
      rcases h with (⟨ha, hb⟩ | ⟨ha, hb⟩) | h3
      · have h1 : 97 ≤ c.toNat := ha
        have h2 : c.toNat ≤ 122 := hb
        omega
      · have h1 : 48 ≤ c.toNat := ha
        have h2 : c.toNat ≤ 57 := hb
        omega
      · subst h3
        decide
    · decide
  have hne : ∀ (d : Char), d.toNat ≠ c.toNat → ¬ (c == d) = true := by
    intro d hd hcon
    rw [beq_iff_eq] at hcon
    subst hcon
    exact hd rfl
  have h34 : ¬ (c == '"') = true := hne '"' (by
    have e : ('"').toNat = 34 := rfl
    omega)
  have h92 : ¬ (c == '\\') = true := hne '\\' (by
    have e : ('\\').toNat = 92 := rfl
    omega)
  have h10 : ¬ (c == '\n') = true := hne '\n' (by
    have e : ('\n').toNat = 10 := rfl
    omega)
  have h09 : ¬ (c == '\t') = true := hne '\t' (by
    have e : ('\t').toNat = 9 := rfl
    omega)
  have h13 : ¬ (c == '\r') = true := hne '\r' (by
    have e : ('\r').toNat = 13 := rfl
    omega)
  have h08 : ¬ (c == Char.ofNat 8) = true := hne (Char.ofNat 8) (by
    have e : (Char.ofNat 8).toNat = 8 := rfl
    omega)
  have h12 : ¬ (c == Char.ofNat 12) = true := hne (Char.ofNat 12) (by
    have e : (Char.ofNat 12).toNat = 12 := rfl
    omega)
  unfold escChar
  rw [if_neg h34, if_neg h92, if_neg h10, if_neg h09, if_neg h13, if_neg h08, if_neg h12,
    if_neg (show ¬ (c.toNat < 32) by omega), if_pos (show c.toNat < 127 by omega)]

theorem escL_id_of_shaped {l : List Char} (h : isEntityIdShapedL l = true) :
    escL l = l := by
  obtain ⟨w1, r2, hl, -, -, hw1, hr2⟩ := entityIdShaped_decomp h
  subst hl
  rw [List.all_eq_true] at hw1 hr2
  have key : ∀ t : List Char, (∀ c ∈ t, isLowerWord c = true ∨ c = '.') → escL t = t := by
    intro t
    induction t with
    | nil => intro _; rfl
    | cons c cs ih =>
      intro hall
      simp only [escL]
      rw [escChar_id (hall c (List.mem_cons_self c cs)),
        ih (fun x hx => hall x (List.mem_cons_of_mem c hx))]
      rfl
  refine key _ ?_
  intro x hx
  rcases List.mem_append.mp hx with h1 | h2
  · exact Or.inl (hw1 x h1)
  · rcases List.mem_cons.mp h2 with rfl | h3
    · exact Or.inr rfl
    · exact Or.inl (hr2 x h3)

theorem lowerWord_isWordChar {c : Char} (h : isLowerWord c = true) :
    isWordChar c = true := by
  have hl := lowerWord_toLower h
  simp only [isWordChar, hl]
  simpa only [isLowerWord] using h

end HAER

namespace HAER

/-- Glue: prepending anything and one non-word separator preserves the
"ends in a non-word character or is empty" condition. -/
theorem lastNonWord_glue {u A2 : List Char} {c : Char} (hc : isWordChar c = false)
    (hA2 : ∀ x, A2.getLast? = some x → isWordChar x = false) :
    ∀ x, (u ++ c :: A2).getLast? = some x → isWordChar x = false := by
  intro x hx
  by_cases hA2e : A2 = []
  · subst hA2e
    rw [show u ++ [c] = u ++ [c] from rfl, List.getLast?_concat] at hx
    have hxc : x = c := by
      injection hx with hx2
      exact hx2.symm
    subst hxc
    exact hc
  · rw [show u ++ c :: A2 = (u ++ [c]) ++ A2 by simp,
      List.getLast?_append_of_ne_nil (u ++ [c]) hA2e] at hx
    exact hA2 x hx

theorem jdList_split (x : String) (xs : List Doc)
    (ih : ∀ v ∈ xs, hasStrLeaf x v = true → ∃ A B,
      jsonDumps v = A ++ '"' :: (x.data ++ '"' :: B) ∧
        (∀ c, A.getLast? = some c → isWordChar c = false))
    (h : hslList x xs = true) :
    ∃ A B, jdList xs = A ++ '"' :: (x.data ++ '"' :: B) ∧
      (∀ c, A.getLast? = some c → isWordChar c = false) := by
  induction xs with
  | nil => simp [hslList] at h
  | cons v rest ihl =>
    rw [show hslList x (v :: rest) = (hasStrLeaf x v || hslList x rest) from rfl,
      Bool.or_eq_true] at h
    by_cases hv : hasStrLeaf x v = true
    · obtain ⟨A1, B1, hd, hl1⟩ := ih v (List.mem_cons_self v rest) hv
      cases rest with
      | nil =>
        refine ⟨A1, B1, ?_, hl1⟩
        rw [show jdList [v] = jsonDumps v from rfl, hd]
      | cons y rest2 =>
        refine ⟨A1, B1 ++ ',' :: ' ' :: jdList (y :: rest2), ?_, hl1⟩
        rw [show jdList (v :: y :: rest2) =
          jsonDumps v ++ ',' :: ' ' :: jdList (y :: rest2) from rfl, hd]
        simp
    · have hrest : hslList x rest = true := h.resolve_left hv
      have hrestne : rest ≠ [] := by
        intro he
        rw [he] at hrest
        simp [hslList] at hrest
      obtain ⟨y, rest2, rfl⟩ : ∃ y rest2, rest = y :: rest2 := by
        cases rest with
        | nil => exact absurd rfl hrestne
        | cons y rest2 => exact ⟨y, rest2, rfl⟩
      obtain ⟨A2, B2, hd2, hl2⟩ :=
        ihl (fun w hw => ih w (List.mem_cons_of_mem v hw)) hrest
      refine ⟨jsonDumps v ++ ',' :: ' ' :: A2, B2, ?_, ?_⟩
      · rw [show jdList (v :: y :: rest2) =
          jsonDumps v ++ ',' :: ' ' :: jdList (y :: rest2) from rfl, hd2]
        simp
      · have hsp : isWordChar ',' = false := by decide
        have inner : ∀ c, (' ' :: A2).getLast? = some c → isWordChar c = false := by
          have := @lastNonWord_glue [] A2 ' ' (by decide) hl2
          simpa using this
        have := @lastNonWord_glue (jsonDumps v) (' ' :: A2) ',' hsp inner
        simpa using this

theorem jdPairs_split (x : String) (kvs : List (String × Doc))
    (ih : ∀ kv ∈ kvs, hasStrLeaf x kv.2 = true → ∃ A B,
      jsonDumps kv.2 = A ++ '"' :: (x.data ++ '"' :: B) ∧
        (∀ c, A.getLast? = some c → isWordChar c = false))
    (h : hslPairs x kvs = true) :
    ∃ A B, jdPairs kvs = A ++ '"' :: (x.data ++ '"' :: B) ∧
      (∀ c, A.getLast? = some c → isWordChar c = false) := by
  induction kvs with
  | nil => simp [hslPairs] at h
  | cons kv rest ihl =>
    obtain ⟨k, v⟩ := kv
    rw [show hslPairs x ((k, v) :: rest) = (hasStrLeaf x v || hslPairs x rest) from rfl,
      Bool.or_eq_true] at h
    by_cases hv : hasStrLeaf x v = true
    · obtain ⟨A1, B1, hd, hl1⟩ := ih (k, v) (List.mem_cons_self (k, v) rest) hv
      have hentry : ∀ T : List Char,
          ('"' :: (escL k.data ++ '"' :: ':' :: ' ' :: jsonDumps v)) ++ T =
          (('"' :: (escL k.data ++ ['"', ':'])) ++ ' ' :: A1) ++
            '"' :: (x.data ++ '"' :: (B1 ++ T)) := by
        intro T
        rw [hd]
        simp
      have hlA : ∀ c, (('"' :: (escL k.data ++ ['"', ':'])) ++ ' ' :: A1).getLast? = some c →
          isWordChar c = false :=
        lastNonWord_glue (by decide) hl1
      cases rest with
      | nil =>
        refine ⟨('"' :: (escL k.data ++ ['"', ':'])) ++ ' ' :: A1, B1, ?_, hlA⟩
        rw [show jdPairs [(k, v)] =
          '"' :: (escL k.data ++ '"' :: ':' :: ' ' :: jsonDumps v) from rfl]
        have := hentry []
        simpa using this
      | cons p rest2 =>
        refine ⟨('"' :: (escL k.data ++ ['"', ':'])) ++ ' ' :: A1,
          B1 ++ ',' :: ' ' :: jdPairs (p :: rest2), ?_, hlA⟩
        rw [show jdPairs ((k, v) :: p :: rest2) =
          ('"' :: (escL k.data ++ '"' :: ':' :: ' ' :: jsonDumps v)) ++
            ',' :: ' ' :: jdPairs (p :: rest2) from rfl]
        exact hentry _
    · have hrest : hslPairs x rest = true := h.resolve_left hv
      have hrestne : rest ≠ [] := by
        intro he
        rw [he] at hrest
        simp [hslPairs] at hrest
      obtain ⟨p, rest2, rfl⟩ : ∃ p rest2, rest = p :: rest2 := by
        cases rest with
        | nil => exact absurd rfl hrestne
        | cons p rest2 => exact ⟨p, rest2, rfl⟩
      obtain ⟨A2, B2, hd2, hl2⟩ :=
        ihl (fun w hw => ih w (List.mem_cons_of_mem (k, v) hw)) hrest
      refine ⟨('"' :: (escL k.data ++ '"' :: ':' :: ' ' :: jsonDumps v)) ++
        ',' :: ' ' :: A2, B2, ?_, ?_⟩
      · rw [show jdPairs ((k, v) :: p :: rest2) =
          ('"' :: (escL k.data ++ '"' :: ':' :: ' ' :: jsonDumps v)) ++
            ',' :: ' ' :: jdPairs (p :: rest2) from rfl, hd2]
        simp
      · have inner : ∀ c, (' ' :: A2).getLast? = some c → isWordChar c = false := by
          have := @lastNonWord_glue [] A2 ' ' (by decide) hl2
          simpa using this
        exact lastNonWord_glue (by decide) inner

/-- Every string leaf equal to an escape-invariant `x` shows up in the
serialized document as a quoted region preceded by a non-word character. -/
theorem jsonDumps_split (x : String) (hesc : escL x.data = x.data) :
    ∀ d, hasStrLeaf x d = true → ∃ A B,
      jsonDumps d = A ++ '"' :: (x.data ++ '"' :: B) ∧
        (∀ c, A.getLast? = some c → isWordChar c = false) := by
  refine Doc.myInduction ?_ ?_ ?_ ?_ ?_ ?_
  · intro s h
    have hs : s = x := by
      simpa [hasStrLeaf] using h
    subst hs
    refine ⟨[], [], ?_, by simp⟩
    rw [show jsonDumps (Doc.str s) = '"' :: (escL s.data ++ ['"']) from rfl, hesc]
    simp
  · intro n h
    simp [hasStrLeaf] at h
  · intro b h
    simp [hasStrLeaf] at h
  · intro h
    simp [hasStrLeaf] at h
  · intro xs ih h
    have h' : hslList x xs = true := by simpa [hasStrLeaf] using h
    obtain ⟨A1, B1, hd, hl1⟩ := jdList_split x xs ih h'
    refine ⟨'[' :: A1, B1 ++ [']'], ?_, ?_⟩
    · rw [show jsonDumps (Doc.arr xs) = '[' :: (jdList xs ++ [']']) from rfl, hd]
      simp
    · have := @lastNonWord_glue [] A1 '[' (by decide) hl1
      simpa using this
  · intro kvs ih h
    have h' : hslPairs x kvs = true := by simpa [hasStrLeaf] using h
    obtain ⟨A1, B1, hd, hl1⟩ := jdPairs_split x kvs ih h'
    refine ⟨lbrace :: A1, B1 ++ [rbrace], ?_, ?_⟩
    · rw [show jsonDumps (Doc.dict kvs) = lbrace :: (jdPairs kvs ++ [rbrace]) from rfl, hd]
      simp
    · have hlb : isWordChar lbrace = false := by decide
      have := @lastNonWord_glue [] A1 lbrace hlb hl1
      simpa using this

end HAER

namespace HAER

/-- Any identifier-shaped string that is the entire value of some string leaf
is captured by the serialized-text scan. -/
theorem findAll_jsonDumps_mem (X : String) (hshape : isEntityIdShaped X = true)
    (d : Doc) (hleaf : hasStrLeaf X d = true) :
    X.data ∈ findAll (jsonDumps d) := by
  have hesc : escL X.data = X.data := escL_id_of_shaped hshape
  obtain ⟨A, B, hdump, hlast⟩ := jsonDumps_split X hesc d hleaf
  obtain ⟨w1, r2, hX, hw1, hr2, ha1, ha2⟩ := entityIdShaped_decomp hshape
  have hb1 : w1.all isWordChar = true := by
    rw [List.all_eq_true] at ha1 ⊢
    exact fun c hc => lowerWord_isWordChar (ha1 c hc)
  have hb2 : r2.all isWordChar = true := by
    rw [List.all_eq_true] at ha2 ⊢
    exact fun c hc => lowerWord_isWordChar (ha2 c hc)
  rw [hdump, hX]
  exact findAll_mem_quoted w1 r2 hw1 hr2 hb1 hb2 A.length A B le_rfl hlast

/-- The scanned identifier survives the automation scanner's exclusion
filter. -/
theorem autoCandidates_mem (X own : String) (hshape : isEntityIdShaped X = true)
    (hex : autoExclude own X = false) (d : Doc) (hleaf : hasStrLeaf X d = true) :
    X ∈ autoCandidates own d := by
  have hfind := findAll_jsonDumps_mem X hshape d hleaf
  refine List.mem_filter.mpr ⟨?_, by simp [hex]⟩
  refine List.mem_map.mpr ⟨X.data, hfind, rfl⟩

/-- The dashboard scanner reports every mapping-value string leaf that
full-matches the identifier pattern and is not a label literal. -/
theorem fer_mem (X : String) (hre : reFullIdMatch X = true)
    (hnv : Dashboards.nonEntityValues.contains X = false) :
    ∀ d, hasDictValueLeaf X d = true → X ∈ Dashboards.find_entity_references d := by
  refine Doc.myInduction ?_ ?_ ?_ ?_ ?_ ?_
  · intro s h
    simp [hasDictValueLeaf] at h
  · intro n h
    simp [hasDictValueLeaf] at h
  · intro b h
    simp [hasDictValueLeaf] at h
  · intro h
    simp [hasDictValueLeaf] at h
  · intro xs ih h
    have h' : hdvList X xs = true := by simpa [hasDictValueLeaf] using h
    rw [show Dashboards.find_entity_references (Doc.arr xs) = Dashboards.ferList xs from rfl]
    clear h
    induction xs with
    | nil => simp [hdvList] at h'
    | cons v rest ihl =>
      rw [show hdvList X (v :: rest) = (hasDictValueLeaf X v || hdvList X rest) from rfl,
        Bool.or_eq_true] at h'
      rw [show Dashboards.ferList (v :: rest) =
        Dashboards.find_entity_references v ++ Dashboards.ferList rest from rfl]
      rcases h' with hv | hrest
      · exact List.mem_append.mpr (Or.inl (ih v (List.mem_cons_self v rest) hv))
      · exact List.mem_append.mpr
          (Or.inr (ihl (fun w hw => ih w (List.mem_cons_of_mem v hw)) hrest))
  · intro kvs ih h
    have h' : hdvPairs X kvs = true := by simpa [hasDictValueLeaf] using h
    rw [show Dashboards.find_entity_references (Doc.dict kvs) = Dashboards.ferPairs kvs from rfl]
    clear h
    induction kvs with
    | nil => simp [hdvPairs] at h'
    | cons kv rest ihl =>
      obtain ⟨k, v⟩ := kv
      have ihrest := ihl (fun w hw => ih w (List.mem_cons_of_mem (k, v) hw))
      have ihv := ih (k, v) (List.mem_cons_self _ _)
      clear ih ihl
      cases v with
      | str s =>
        rw [show hdvPairs X ((k, Doc.str s) :: rest) =
          ((s == X) || hasDictValueLeaf X (Doc.str s) || hdvPairs X rest) from rfl] at h'
        simp only [Bool.or_eq_true] at h'
        rw [show Dashboards.ferPairs ((k, Doc.str s) :: rest) =
          (if reFullIdMatch s && !Dashboards.nonEntityValues.contains s then [s] else []) ++
            Dashboards.find_entity_references (Doc.str s) ++ Dashboards.ferPairs rest
          from rfl]
        rcases h' with (hstr | hv) | hrest
        · have hsX : s = X := by simpa using hstr
          subst hsX
          refine List.mem_append.mpr (Or.inl (List.mem_append.mpr (Or.inl ?_)))
          rw [if_pos (by rw [hre, hnv]; rfl)]
          exact List.mem_cons_self s []
        · simp [hasDictValueLeaf] at hv
        · exact List.mem_append.mpr (Or.inr (ihrest hrest))
      | num n =>
        rw [show hdvPairs X ((k, Doc.num n) :: rest) =
          (false || hasDictValueLeaf X (Doc.num n) || hdvPairs X rest) from rfl] at h'
        simp only [Bool.or_eq_true] at h'
        rw [show Dashboards.ferPairs ((k, Doc.num n) :: rest) =
          [] ++ Dashboards.find_entity_references (Doc.num n) ++ Dashboards.ferPairs rest
          from rfl]
        rcases h' with (hstr | hv) | hrest
        · simp at hstr
        · simp [hasDictValueLeaf] at hv
        · exact List.mem_append.mpr (Or.inr (ihrest hrest))
      | bool b =>
        rw [show hdvPairs X ((k, Doc.bool b) :: rest) =
          (false || hasDictValueLeaf X (Doc.bool b) || hdvPairs X rest) from rfl] at h'
        simp only [Bool.or_eq_true] at h'
        rw [show Dashboards.ferPairs ((k, Doc.bool b) :: rest) =
          [] ++ Dashboards.find_entity_references (Doc.bool b) ++ Dashboards.ferPairs rest
          from rfl]
        rcases h' with (hstr | hv) | hrest
        · simp at hstr
        · simp [hasDictValueLeaf] at hv
        · exact List.mem_append.mpr (Or.inr (ihrest hrest))
      | null =>
        rw [show hdvPairs X ((k, Doc.null) :: rest) =
          (false || hasDictValueLeaf X Doc.null || hdvPairs X rest) from rfl] at h'
        simp only [Bool.or_eq_true] at h'
        rw [show Dashboards.ferPairs ((k, Doc.null) :: rest) =
          [] ++ Dashboards.find_entity_references Doc.null ++ Dashboards.ferPairs rest
          from rfl]
        rcases h' with (hstr | hv) | hrest
        · simp at hstr
        · simp [hasDictValueLeaf] at hv
        · exact List.mem_append.mpr (Or.inr (ihrest hrest))
      | arr xs2 =>
        rw [show hdvPairs X ((k, Doc.arr xs2) :: rest) =
          (false || hasDictValueLeaf X (Doc.arr xs2) || hdvPairs X rest) from rfl] at h'
        simp only [Bool.or_eq_true] at h'
        rw [show Dashboards.ferPairs ((k, Doc.arr xs2) :: rest) =
          [] ++ Dashboards.find_entity_references (Doc.arr xs2) ++ Dashboards.ferPairs rest
          from rfl]
        rcases h' with (hstr | hv) | hrest
        · simp at hstr
        · exact List.mem_append.mpr (Or.inl (List.mem_append.mpr (Or.inr (ihv hv))))
        · exact List.mem_append.mpr (Or.inr (ihrest hrest))
      | dict kvs2 =>
        rw [show hdvPairs X ((k, Doc.dict kvs2) :: rest) =
          (false || hasDictValueLeaf X (Doc.dict kvs2) || hdvPairs X rest) from rfl] at h'
        simp only [Bool.or_eq_true] at h'
        rw [show Dashboards.ferPairs ((k, Doc.dict kvs2) :: rest) =
          [] ++ Dashboards.find_entity_references (Doc.dict kvs2) ++ Dashboards.ferPairs rest
          from rfl]
        rcases h' with (hstr | hv) | hrest
        · simp at hstr
        · exact List.mem_append.mpr (Or.inl (List.mem_append.mpr (Or.inr (ihv hv))))
        · exact List.mem_append.mpr (Or.inr (ihrest hrest))

theorem mem_insStr {x y : String} {l : List String} :
    y ∈ Dashboards.insStr x l ↔ y = x ∨ y ∈ l := by
  induction l with
  | nil => simp [Dashboards.insStr]
  | cons a r ih =>
    simp only [Dashboards.insStr]
    split
    · simp only [List.mem_cons, ih]
      tauto
    · simp only [List.mem_cons]

theorem mem_sortStrs {y : String} {l : List String} :
    y ∈ Dashboards.sortStrs l ↔ y ∈ l := by
  induction l with
  | nil => simp [Dashboards.sortStrs]
  | cons a r ih =>
    simp only [Dashboards.sortStrs, mem_insStr, List.mem_cons, ih]

/-- The broken-dashboard pipeline keeps every scanned reference that is
outside the catalog and inside the domain allow-list. -/
theorem dashFilteredBroken_mem (X : String) (refs valid : List String)
    (h1 : X ∈ refs) (h2 : ¬ X ∈ valid) (h3 : Dashboards.dashKeepRef X = true) :
    X ∈ Dashboards.dashFilteredBroken refs valid := by
  refine List.mem_filter.mpr ⟨?_, h3⟩
  rw [mem_sortStrs, List.mem_dedup]
  refine List.mem_filter.mpr ⟨h1, ?_⟩
  simpa using h2

end HAER

namespace HAER

/-- C2: counterexample.  The identifier `light.old` is shaped, is not the
document's own id, matches no exclusion rule (not a platform literal, not
`input_select.*`, domain `light` in the dashboard allow-list, not a label
literal) and is present verbatim inside the string leaf
`states(`…`light.old`…`)` of an automation document — yet the serialized-text
scan reports no candidate for that document, because the regex only captures
identifiers spanning a whole double-quoted serialized string.  Likewise a
dashboard string leaf exactly equal to the identifier but sitting as a list
element is missed entirely by the structural scanner, which only tests
mapping values. -/
theorem C2_counterexample :
    isEntityIdShaped "light.old" = true ∧
    autoExclude "automation.x" "light.old" = false ∧
    Dashboards.dashKeepRef "light.old" = true ∧
    Dashboards.nonEntityValues.contains "light.old" = false ∧
    containsL "light.old".data stExprOld.data = true ∧
    autoCandidates "automation.x" (Doc.dict [("value", Doc.str stExprOld)]) = [] ∧
    Dashboards.find_entity_references
      (Doc.dict [("entities", Doc.arr [Doc.str "light.old"])]) = [] := by
  refine ⟨by decide, by decide, by decide, by decide, by decide, by decide, rfl⟩

/-- C2 (amended): each scanner does report every identifier it can see.
If a shaped identifier `X` is the *entire* value of some string leaf of an
automation document and matches no exclusion (own id, platform literal,
`input_select.*`), the serialized-text scan reports it among the candidates.
If `X` full-matches the anchored pattern, is not a label literal, and is the
value of some *mapping entry* of a dashboard document, the structural scan
reports it; and when it is moreover absent from the valid catalog and its
domain is in the allow-list, it survives the broken-reference pipeline. -/
theorem C2_scanner_report (X own : String) (d e : Doc) (valid : List String)
    (hshape : isEntityIdShaped X = true)
    (hex : autoExclude own X = false)
    (hleaf : hasStrLeaf X d = true)
    (hre : reFullIdMatch X = true)
    (hnv : Dashboards.nonEntityValues.contains X = false)
    (hdv : hasDictValueLeaf X e = true)
    (hvalid : ¬ X ∈ valid)
    (hkeep : Dashboards.dashKeepRef X = true) :
    X ∈ autoCandidates own d ∧
    X ∈ Dashboards.find_entity_references e ∧
    X ∈ Dashboards.dashFilteredBroken (Dashboards.find_entity_references e) valid := by
  refine ⟨autoCandidates_mem X own hshape hex d hleaf, fer_mem X hre hnv e hdv, ?_⟩
  exact dashFilteredBroken_mem X _ valid (fer_mem X hre hnv e hdv) hvalid hkeep

/-- Witness for C2 (amended) at a concrete document pair. -/
theorem C2_scanner_report_witness :
    "light.old" ∈ autoCandidates "automation.x"
        (Doc.dict [("value", Doc.str "light.old")]) ∧
    "light.old" ∈ Dashboards.find_entity_references
        (Doc.dict [("entity", Doc.str "light.old")]) ∧
    "light.old" ∈ Dashboards.dashFilteredBroken
        (Dashboards.find_entity_references (Doc.dict [("entity", Doc.str "light.old")]))
        ["light.new"] :=
  C2_scanner_report "light.old" "automation.x"
    (Doc.dict [("value", Doc.str "light.old")])
    (Doc.dict [("entity", Doc.str "light.old")]) ["light.new"]
    (by decide) (by decide) (by decide) (by decide) (by decide) (by decide)
    (by decide) (by decide)

end HAER

namespace HAER

theorem find_broken_groups_found_iff (states : List GState) (valid : List String) :
    find_broken_groups_found states valid = true ↔
      ∃ st ∈ states, ∃ ms, groupMembers st = some ms ∧
        ∃ m ∈ ms, memberBad valid m = true := by
  unfold find_broken_groups_found
  rw [List.any_eq_true]
  constructor
  · rintro ⟨st, hst, hmatch⟩
    refine ⟨st, hst, ?_⟩
    cases hgm : groupMembers st with
    | none => rw [hgm] at hmatch; simp at hmatch
    | some ms =>
      rw [hgm] at hmatch
      exact ⟨ms, rfl, List.any_eq_true.mp hmatch⟩
  · rintro ⟨st, hst, ms, hgm, m, hm, hbad⟩
    exact ⟨st, hst, by rw [hgm]; exact List.any_eq_true.mpr ⟨m, hm, hbad⟩⟩

/-- C3: counterexample.  An automations run that finds a broken reference
(`light.gone`, reported by the scan) still exits 0: the `__main__` block of
`find_broken_automations.py` never calls `sys.exit`, so "exit status is
non-zero if at least one broken reference was found and remained unresolved"
fails. -/
theorem C3_counterexample :
    automations_scan_broken
        [("automation.x", Doc.dict [("entity_id", Doc.str "light.gone")])]
        ["light.ok"] = [("automation.x", "light.gone")] ∧
    automations_main_exit
        [("automation.x", Doc.dict [("entity_id", Doc.str "light.gone")])]
        ["light.ok"] = 0 :=
  ⟨by decide, rfl⟩

/-- C3 (amended): a completed automations run always exits 0, whatever the
scan found (the same holds for scripts and dashboards); only the groups
checker signals through its exit status, and it exits 1 exactly when some
group-like state has a member outside the valid set — whether or not the
interactive loop fixed it. -/
theorem C3_exit_codes (states : List GState) (valid : List String)
    (docs : List (String × Doc)) :
    automations_main_exit docs valid = 0 ∧
    (groups_main_exit states valid = 1 ↔
      ∃ st ∈ states, ∃ ms, groupMembers st = some ms ∧
        ∃ m ∈ ms, memberBad valid m = true) := by
  refine ⟨rfl, ?_⟩
  rw [← find_broken_groups_found_iff]
  unfold groups_main_exit
  split
  · rename_i h
    simp [h]
  · rename_i h
    simp only [Bool.not_eq_true] at h
    simp [h]

end HAER

namespace HAER

theorem listLexLe_total (a b : List Char) : listLexLe a b = true ∨ listLexLe b a = true := by
  induction a generalizing b with
  | nil => left; rfl
  | cons x xs ih =>
    cases b with
    | nil => right; rfl
    | cons y ys =>
      rcases lt_trichotomy x y with hxy | hxy | hxy
      · left; simp [listLexLe, hxy]
      · subst hxy
        rcases ih ys with h | h
        · left; simp [listLexLe, lt_irrefl, h]
        · right; simp [listLexLe, lt_irrefl, h]
      · right; simp [listLexLe, hxy]

theorem listLexLe_trans {a b c : List Char} (h1 : listLexLe a b = true)
    (h2 : listLexLe b c = true) : listLexLe a c = true := by
  induction a generalizing b c with
  | nil => rfl
  | cons x xs ih =>
    cases b with
    | nil => simp [listLexLe] at h1
    | cons y ys =>
      cases c with
      | nil => simp [listLexLe] at h2
      | cons z zs =>
        simp only [listLexLe] at h1 h2 ⊢
        by_cases hxy : x < y
        · by_cases hyz : y < z
          · rw [if_pos (lt_trans hxy hyz)]
          · by_cases hzy : z < y
            · rw [if_neg hyz, if_pos hzy] at h2
              exact absurd h2 (by simp)
            · have hyz2 : y = z := le_antisymm (not_lt.mp hzy) (not_lt.mp hyz)
              subst hyz2
              rw [if_pos hxy]
        · by_cases hyx : y < x
          · rw [if_neg hxy, if_pos hyx] at h1
            exact absurd h1 (by simp)
          · have hxy2 : x = y := le_antisymm (not_lt.mp hyx) (not_lt.mp hxy)
            subst hxy2
            rw [if_neg (lt_irrefl x), if_neg (lt_irrefl x)] at h1
            by_cases hxz : x < z
            · rw [if_pos hxz]
            · by_cases hzx : z < x
              · rw [if_neg hxz, if_pos hzx] at h2
                exact absurd h2 (by simp)
              · have hxz2 : x = z := le_antisymm (not_lt.mp hzx) (not_lt.mp hxz)
                subst hxz2
                rw [if_neg (lt_irrefl x), if_neg (lt_irrefl x)] at h2 ⊢
                exact ih h1 h2

theorem listLexLe_antisymm {a b : List Char} (h1 : listLexLe a b = true)
    (h2 : listLexLe b a = true) : a = b := by
  induction a generalizing b with
  | nil =>
    cases b with
    | nil => rfl
    | cons y ys => simp [listLexLe] at h2
  | cons x xs ih =>
    cases b with
    | nil => simp [listLexLe] at h1
    | cons y ys =>
      simp only [listLexLe] at h1 h2
      by_cases hxy : x < y
      · rw [if_neg (not_lt.mpr (le_of_lt hxy)), if_pos hxy] at h2
        exact absurd h2 (by simp)
      · by_cases hyx : y < x
        · rw [if_neg hxy, if_pos hyx] at h1
          exact absurd h1 (by simp)
        · have hxy2 : x = y := le_antisymm (not_lt.mp hyx) (not_lt.mp hxy)
          subst hxy2
          rw [if_neg (lt_irrefl x), if_neg (lt_irrefl x)] at h1 h2
          rw [ih h1 h2]

instance : IsTrans (ℚ × String) RPair where
  trans := by
    rintro p q r (h1 | ⟨h1, h1l⟩) (h2 | ⟨h2, h2l⟩)
    · exact Or.inl (lt_trans h2 h1)
    · exact Or.inl (h2 ▸ h1)
    · exact Or.inl (h1 ▸ h2)
    · exact Or.inr ⟨h1.trans h2, listLexLe_trans h2l h1l⟩

instance : IsAntisymm (ℚ × String) RPair where
  antisymm := by
    rintro ⟨ps, pw⟩ ⟨qs, qw⟩ (h1 | ⟨h1, h1l⟩) (h2 | ⟨h2, h2l⟩)
    · exact absurd h1 (not_lt.mpr (le_of_lt h2))
    · exact absurd h1 (h2 ▸ lt_irrefl _)
    · exact absurd h2 (h1 ▸ lt_irrefl _)
    · have hw : pw = qw := String.ext (listLexLe_antisymm h2l h1l)
      have hs : ps = qs := h1
      rw [hw, hs]

instance : IsTotal (ℚ × String) RPair where
  total := by
    rintro ⟨ps, pw⟩ ⟨qs, qw⟩
    rcases lt_trichotomy ps qs with h | h | h
    · exact Or.inr (Or.inl h)
    · rcases listLexLe_total pw.data qw.data with hl | hl
      · exact Or.inr (Or.inr ⟨h.symm, hl⟩)
      · exact Or.inl (Or.inr ⟨h, hl⟩)
    · exact Or.inl (Or.inl h)

theorem mem_closeScored {p : ℚ × String} {word : String} {poss : List String} {cutoff : ℚ}
    (h : p ∈ closeScored word poss cutoff) :
    p.2 ∈ poss ∧ p.1 = seqScore p.2.data word.data ∧ cutoff ≤ p.1 := by
  obtain ⟨x, hx, hfx⟩ := List.mem_filterMap.mp h
  split at hfx
  · rename_i hcond
    cases hfx
    exact ⟨hx, rfl, hcond.2.2⟩
  · exact absurd hfx (by simp)

theorem mem_get_close_matches {x : String} {word : String} {poss : List String}
    {n : Nat} {cutoff : ℚ} (h : x ∈ get_close_matches word poss n cutoff) :
    x ∈ poss ∧ cutoff ≤ seqScore x.data word.data := by
  obtain ⟨p, hp, hpx⟩ := List.mem_map.mp h
  have hp3 : p ∈ closeScored word poss cutoff :=
    (List.perm_insertionSort RPair _).mem_iff.mp (List.mem_of_mem_take hp)
  obtain ⟨hmem, hscore, hcut⟩ := mem_closeScored hp3
  subst hpx
  exact ⟨hmem, hscore ▸ hcut⟩

theorem length_get_close_matches (word : String) (poss : List String) (n : Nat)
    (cutoff : ℚ) : (get_close_matches word poss n cutoff).length ≤ n := by
  rw [get_close_matches, List.length_map]
  exact List.length_take_le n _

theorem pairwise_get_close_matches (word : String) (poss : List String) (n : Nat)
    (cutoff : ℚ) :
    List.Pairwise (fun x y => seqScore y.data word.data ≤ seqScore x.data word.data)
      (get_close_matches word poss n cutoff) := by
  have hs : List.Sorted RPair (List.insertionSort RPair (closeScored word poss cutoff)) :=
    List.sorted_insertionSort RPair _
  have ht : List.Pairwise RPair
      ((List.insertionSort RPair (closeScored word poss cutoff)).take n) :=
    List.Pairwise.sublist (List.take_sublist n _) hs
  rw [get_close_matches, List.pairwise_map]
  refine List.Pairwise.imp_of_mem ?_ ht
  intro p q hp hq hr
  have hp3 := mem_closeScored ((List.perm_insertionSort RPair _).mem_iff.mp
    (List.mem_of_mem_take hp))
  have hq3 := mem_closeScored ((List.perm_insertionSort RPair _).mem_iff.mp
    (List.mem_of_mem_take hq))
  have hle : q.1 ≤ p.1 := by
    rcases hr with h | ⟨h, _⟩
    · exact le_of_lt h
    · exact le_of_eq h.symm
  rw [← hp3.2.1, ← hq3.2.1]
  exact hle

theorem mem_dedupFirstGo (seen l : List String) (y : String) :
    y ∈ dedupFirstGo seen l ↔ y ∈ l ∧ ¬ y ∈ seen := by
  induction l generalizing seen with
  | nil => simp [dedupFirstGo]
  | cons x r ih =>
    simp only [dedupFirstGo]
    split
    · rename_i hx
      rw [ih]
      simp only [List.mem_cons]
      constructor
      · rintro ⟨hyr, hys⟩
        exact ⟨Or.inr hyr, hys⟩
      · rintro ⟨hy, hys⟩
        rcases hy with rfl | hyr
        · exact absurd (List.elem_iff.mp hx) hys
        · exact ⟨hyr, hys⟩
    · rename_i hx
      have hxs : ¬ x ∈ seen := fun hc => hx (List.elem_iff.mpr hc)
      simp only [List.mem_cons, ih, List.mem_cons]
      constructor
      · rintro (rfl | ⟨hyr, hys⟩)
        · exact ⟨Or.inl rfl, hxs⟩
        · exact ⟨Or.inr hyr, fun hmem => hys (Or.inr hmem)⟩
      · rintro ⟨hy, hys⟩
        rcases hy with rfl | hyr
        · exact Or.inl rfl
        · by_cases hyx : y = x
          · exact Or.inl hyx
          · exact Or.inr ⟨hyr, by
              intro hc
              rcases hc with hc | hc
              · exact hyx hc
              · exact hys hc⟩

theorem mem_dedupFirst {l : List String} {y : String} : y ∈ dedupFirst l ↔ y ∈ l := by
  rw [dedupFirst, mem_dedupFirstGo]
  simp

theorem nodup_dedupFirstGo (seen l : List String) : (dedupFirstGo seen l).Nodup := by
  induction l generalizing seen with
  | nil => simp [dedupFirstGo]
  | cons x r ih =>
    simp only [dedupFirstGo]
    split
    · exact ih seen
    · refine List.nodup_cons.mpr ⟨?_, ih (x :: seen)⟩
      intro hmem
      exact ((mem_dedupFirstGo _ _ _).mp hmem).2 (List.mem_cons_self x seen)

end HAER

namespace HAER

theorem strStarts_append (p s : String) : strStarts p (p ++ s) = true := by
  rw [strStarts, String.data_append]
  exact List.isPrefixOf_iff_prefix.mpr (List.prefix_append p.data s.data)

theorem suggest_fix_sound (broken : String) (valid : List String) :
    ∀ c ∈ suggest_fix broken valid,
      c ∈ valid ∧ strStarts (domainOf broken ++ ".") c = true := by
  intro c hc
  unfold suggest_fix at hc
  split at hc
  · simp at hc
  · dsimp only at hc
    rw [mem_dedupFirst, List.mem_append] at hc
    rcases hc with hc | hc
    · obtain ⟨hmem, _⟩ := mem_get_close_matches hc
      exact ⟨(List.mem_filter.mp hmem).1, (List.mem_filter.mp hmem).2⟩
    · obtain ⟨suf, hsuf, hfx⟩ := List.mem_filterMap.mp hc
      split at hfx
      · split at hfx
        · rename_i hcontains
          cases hfx
          refine ⟨List.elem_iff.mp hcontains, ?_⟩
          exact strStarts_append (domainOf broken ++ ".")
            (⟨(nameOf broken).data.take ((nameOf broken).data.length - suf.data.length)⟩ : String)
        · exact absurd hfx (by simp)
      · exact absurd hfx (by simp)

theorem suggest_fix_nodup (broken : String) (valid : List String) :
    (suggest_fix broken valid).Nodup := by
  unfold suggest_fix
  split
  · exact List.nodup_nil
  · exact nodup_dedupFirstGo [] _

/-- C9: every candidate returned by `suggest_fix` is a member of the given
valid set and starts with the broken reference's domain followed by a dot;
and an input with no dot yields the empty list. -/
theorem C9_suggest_membership (broken : String) (valid : List String) :
    (∀ c ∈ suggest_fix broken valid,
      c ∈ valid ∧ strStarts (domainOf broken ++ ".") c = true) ∧
    (containsL ['.'] broken.data = false → suggest_fix broken valid = []) := by
  refine ⟨suggest_fix_sound broken valid, ?_⟩
  intro h
  unfold suggest_fix
  rw [if_pos (by rw [h]; rfl)]

end HAER

namespace HAER

theorem contains_eq_of_perm {v1 v2 : List String} (h : v1.Perm v2) (x : String) :
    v1.contains x = v2.contains x := by
  rw [Bool.eq_iff_iff, List.elem_iff, List.elem_iff]
  exact h.mem_iff

/-- C5: the suggestion pipeline: the fuzzy stage keeps at most 3 candidates,
every fuzzy candidate is a valid entity of the broken identifier's domain
with similarity at least 3/5, the fuzzy candidates come in non-increasing
similarity order, the final list is duplicate-free, and on the spec's
concrete example `suggest_fix "light.foo_switch" {"light.foo",
"switch.foo_switch"}` returns exactly `["light.foo"]` (under either
enumeration of the set). -/
theorem C5_suggest_pipeline (broken : String) (valid : List String) :
    ((get_close_matches broken
        (valid.filter (fun e => strStarts (domainOf broken ++ ".") e)) 3
        (mkRat 3 5)).length ≤ 3) ∧
    (∀ x ∈ get_close_matches broken
        (valid.filter (fun e => strStarts (domainOf broken ++ ".") e)) 3 (mkRat 3 5),
      x ∈ valid ∧ strStarts (domainOf broken ++ ".") x = true ∧
        mkRat 3 5 ≤ seqScore x.data broken.data) ∧
    List.Pairwise (fun x y => seqScore y.data broken.data ≤ seqScore x.data broken.data)
      (get_close_matches broken
        (valid.filter (fun e => strStarts (domainOf broken ++ ".") e)) 3 (mkRat 3 5)) ∧
    (suggest_fix broken valid).Nodup ∧
    suggest_fix "light.foo_switch" ["light.foo", "switch.foo_switch"] = ["light.foo"] ∧
    suggest_fix "light.foo_switch" ["switch.foo_switch", "light.foo"] = ["light.foo"] := by
  refine ⟨length_get_close_matches _ _ _ _, ?_, pairwise_get_close_matches _ _ _ _,
    suggest_fix_nodup broken valid, by decide, by decide⟩
  intro x hx
  obtain ⟨hmem, hcut⟩ := mem_get_close_matches hx
  exact ⟨(List.mem_filter.mp hmem).1, (List.mem_filter.mp hmem).2, hcut⟩

/-- C7: `suggest_fix` is a function of the *value* of the valid set: its
output is identical across any two enumeration orders of the same set, so
repeated calls with the same inputs return the same ordered sequence.  (The
`heapq.nlargest` step orders the `(score, word)` tuples lexicographically,
which resolves score ties canonically by the word itself.) -/
theorem C7_suggest_deterministic (broken : String) (v1 v2 : List String)
    (hperm : v1.Perm v2) : suggest_fix broken v1 = suggest_fix broken v2 := by
  unfold suggest_fix
  split
  · rfl
  · have hsd : (v1.filter (fun e => strStarts (domainOf broken ++ ".") e)).Perm
        (v2.filter (fun e => strStarts (domainOf broken ++ ".") e)) :=
      hperm.filter _
    have hcs : (closeScored broken
        (v1.filter (fun e => strStarts (domainOf broken ++ ".") e)) (mkRat 3 5)).Perm
        (closeScored broken
          (v2.filter (fun e => strStarts (domainOf broken ++ ".") e)) (mkRat 3 5)) :=
      hsd.filterMap _
    have hsort : List.insertionSort RPair (closeScored broken
        (v1.filter (fun e => strStarts (domainOf broken ++ ".") e)) (mkRat 3 5)) =
        List.insertionSort RPair (closeScored broken
          (v2.filter (fun e => strStarts (domainOf broken ++ ".") e)) (mkRat 3 5)) := by
      refine List.eq_of_perm_of_sorted ?_ (List.sorted_insertionSort RPair _)
        (List.sorted_insertionSort RPair _)
      exact ((List.perm_insertionSort RPair _).trans hcs).trans
        (List.perm_insertionSort RPair _).symm
    have hfuzzy : get_close_matches broken
        (v1.filter (fun e => strStarts (domainOf broken ++ ".") e)) 3 (mkRat 3 5) =
        get_close_matches broken
          (v2.filter (fun e => strStarts (domainOf broken ++ ".") e)) 3 (mkRat 3 5) := by
      rw [get_close_matches, get_close_matches, hsort]
    have hsuf : ∀ suf ∈ suffixesList,
        (if suf.data.isSuffixOf (nameOf broken).data then
          if v1.contains (domainOf broken ++ "." ++
              (⟨(nameOf broken).data.take ((nameOf broken).data.length - suf.data.length)⟩ : String))
            then some (domainOf broken ++ "." ++
              (⟨(nameOf broken).data.take ((nameOf broken).data.length - suf.data.length)⟩ : String))
            else none
         else none) =
        (if suf.data.isSuffixOf (nameOf broken).data then
          if v2.contains (domainOf broken ++ "." ++
              (⟨(nameOf broken).data.take ((nameOf broken).data.length - suf.data.length)⟩ : String))
            then some (domainOf broken ++ "." ++
              (⟨(nameOf broken).data.take ((nameOf broken).data.length - suf.data.length)⟩ : String))
            else none
         else none) := by
      intro suf _
      rw [contains_eq_of_perm hperm]
    dsimp only
    rw [hfuzzy, List.filterMap_congr hsuf]

/-- Witness for C7 at a concrete pair of enumerations. -/
theorem C7_suggest_deterministic_witness :
    suggest_fix "light.foo_switch" ["light.foo", "light.fooo"] =
      suggest_fix "light.foo_switch" ["light.fooo", "light.foo"] :=
  C7_suggest_deterministic "light.foo_switch" ["light.foo", "light.fooo"]
    ["light.fooo", "light.foo"] (by decide)

end HAER

namespace HAER

/-- C6: a failed registry or states fetch contributes the empty set and the
catalog is the union of whichever fetches succeeded; a failed services fetch
yields the empty service set; a successful one yields the flattened
`domain.service` strings.  In every case a value is returned (no abort), and
the threaded correlation id still advances. -/
theorem C6_catalog_partial (r1 r2 : FetchResult) (s : ServicesResult) (m k : Nat) :
    (∀ x, x ∈ (get_valid_entities r1 r2 m).1 ↔
      (r1.success = true ∧ x ∈ r1.items) ∨ (r2.success = true ∧ x ∈ r2.items)) ∧
    (s.success = false → (get_valid_services s k).1 = []) ∧
    (s.success = true → (get_valid_services s k).1 =
      concatAll (s.result.map (fun p => p.2.map (fun svc => p.1 ++ "." ++ svc)))) ∧
    (get_valid_entities r1 r2 m).2 = m + 2 ∧ (get_valid_services s k).2 = k + 1 := by
  refine ⟨?_, ?_, ?_, rfl, ?_⟩
  · intro x
    cases h1 : r1.success <;> cases h2 : r2.success <;>
      simp [get_valid_entities, h1, h2]
  · intro h
    simp [get_valid_services, h]
  · intro h
    simp [get_valid_services, h]
  · unfold get_valid_services
    split <;> rfl

theorem run_mem {op : WsOp} {m i : Nat} (h : i ∈ (op.run m).1) :
    m < i ∧ i ≤ m + op.sends := by
  rw [WsOp.run] at h
  obtain ⟨j, hj, rfl⟩ := List.mem_map.mp h
  rw [List.mem_range] at hj
  omega

theorem run_pairwise (op : WsOp) (m : Nat) : List.Pairwise (· < ·) (op.run m).1 := by
  rw [WsOp.run]
  rw [List.pairwise_map]
  refine (List.pairwise_lt_range op.sends).imp ?_
  intro a b hab
  omega

theorem runOps_spec (ops : List WsOp) (m : Nat) :
    List.Pairwise (· < ·) (runOps ops m).1 ∧
    (∀ i ∈ (runOps ops m).1, m < i ∧ i ≤ (runOps ops m).2) ∧
    m ≤ (runOps ops m).2 := by
  induction ops generalizing m with
  | nil => exact ⟨List.Pairwise.nil, by simp [runOps], le_refl m⟩
  | cons op rest ih =>
    obtain ⟨ihp, ihm, ihle⟩ := ih (m + op.sends)
    have hrun : runOps (op :: rest) m =
        ((op.run m).1 ++ (runOps rest (m + op.sends)).1,
          (runOps rest (m + op.sends)).2) := rfl
    rw [hrun]
    refine ⟨?_, ?_, le_trans (Nat.le_add_right m op.sends) ihle⟩
    · rw [List.pairwise_append]
      refine ⟨run_pairwise op m, ihp, ?_⟩
      intro a ha b hb
      have h1 := run_mem ha
      have h2 := (ihm b hb).1
      omega
    · intro i hi
      rcases List.mem_append.mp hi with h | h
      · have h1 := run_mem h
        exact ⟨h1.1, le_trans h1.2 ihle⟩
      · have h2 := ihm i h
        exact ⟨lt_of_le_of_lt (Nat.le_add_right m op.sends) h2.1, h2.2⟩

theorem runOps_final (ops : List WsOp) (m : Nat) :
    (runOps ops m).2 = m + (ops.map WsOp.sends).sum := by
  induction ops generalizing m with
  | nil => simp [runOps]
  | cons op rest ih =>
    show (runOps rest (m + op.sends)).2 = _
    rw [ih]
    simp only [List.map_cons, List.sum_cons]
    omega

/-- C8: the correlation id is strictly monotone within a run: over any
sequence of threaded request-sending operations, the ids sent are pairwise
strictly increasing, each id exceeds the starting counter, and the returned
counter is the start plus the number of requests sent (so each operation
increments before sending and commits the updated value).  The ids of a
whole `reset_entity_names` run — `list_entities` at id 1 followed by
`process_entities` restarting at 100 — are likewise strictly increasing. -/
theorem C8_msg_id_monotone (ops : List WsOp) (m : Nat) :
    List.Pairwise (· < ·) (runOps ops m).1 ∧
    (∀ i ∈ (runOps ops m).1, m < i) ∧
    (runOps ops m).2 = m + (ops.map WsOp.sends).sum ∧
    List.Pairwise (· < ·) (reset_run_ids ops) := by
  obtain ⟨hp, hm, _⟩ := runOps_spec ops m
  refine ⟨hp, fun i hi => (hm i hi).1, runOps_final ops m, ?_⟩
  rw [reset_run_ids, list_entities_ids, List.pairwise_append]
  obtain ⟨hp2, hm2, _⟩ := runOps_spec ops 100
  refine ⟨List.pairwise_singleton _ _, hp2, ?_⟩
  intro a ha b hb
  have h2 := (hm2 b hb).1
  have ha1 : a = 1 := List.mem_singleton.mp ha
  omega

end HAER
